import Mathlib

/-!
Verification of the RESP codec, command parsing, store/engine semantics and
replication handshake of a small Redis-compatible server written in Rust.

The embedding is byte-level: wire buffers are `List Nat` (one `Nat` per byte),
and Rust `String`s are modelled as their UTF-8 byte lists, with UTF-8 validity
(`String::from_utf8`) modelled by an explicit validator.  `SystemTime` and
`Duration` are modelled as `Nat` (milliseconds); `SystemTime::checked_add`
never overflows on `Nat`, matching the non-overflow executions of the code.

Sources embedded: `src/redis/resp.rs` (codec), `src/redis/cmd.rs` and
`src/redis/cmd/*.rs` (command parsing), `src/redis/handler.rs` and
`src/redis/cmd/{set,get,ping,echo,info}.rs` (handlers and store),
`src/redis.rs` (engine loop), `src/redis/replica.rs` together with the
command clients in `src/redis/cmd/{ping,replconf}.rs` (handshake).
-/

namespace Redis

/-! ## resp.rs: helpers -/

/-- Embedding of `read_until_crlf` (resp.rs): scan for the first adjacent
`\r\n` pair; return the bytes before it and the total bytes read (pair
included), or `none` when no pair exists. -/
def readUntilCrlf : List Nat → Option (List Nat × Nat)
  | [] => none
  | b :: rest =>
    match rest with
    | [] => none
    | b2 :: _ =>
      if b = 13 ∧ b2 = 10 then some ([], 2)
      else (readUntilCrlf rest).map fun p => (b :: p.1, p.2 + 1)

/-- True exactly when the byte list contains no adjacent CR LF pair. -/
def noCRLF : List Nat → Bool
  | [] => true
  | [_] => true
  | b :: b2 :: rest => (!(b = 13 && b2 = 10)) && noCRLF (b2 :: rest)

/-- A UTF-8 continuation byte (`0x80..=0xBF`). -/
def isCont (b : Nat) : Bool := 128 ≤ b && b ≤ 191

/-- Require one continuation byte within `lo..hi`, then continue with `k`. -/
def utf8Need1 (k : List Nat → Bool) (lo hi : Nat) : List Nat → Bool
  | c1 :: r => (lo ≤ c1 && c1 ≤ hi) && k r
  | _ => false

/-- Require a continuation byte within `lo..hi` and one standard continuation
byte, then continue with `k`. -/
def utf8Need2 (k : List Nat → Bool) (lo hi : Nat) : List Nat → Bool
  | c1 :: c2 :: r => (lo ≤ c1 && c1 ≤ hi) && isCont c2 && k r
  | _ => false

/-- Require a continuation byte within `lo..hi` and two standard continuation
bytes, then continue with `k`. -/
def utf8Need3 (k : List Nat → Bool) (lo hi : Nat) : List Nat → Bool
  | c1 :: c2 :: c3 :: r => (lo ≤ c1 && c1 ≤ hi) && isCont c2 && isCont c3 && k r
  | _ => false

/-- Embedding of the success condition of `String::from_utf8`: standard UTF-8
validity (overlong encodings, surrogates and values above `0x10FFFF`
rejected).  The fuel argument only bounds the recursion; every step consumes
at least one byte of the list, so the fuel `s.length` supplied by
`utf8Valid` never runs out (the `0` branch is an unreachable guard). -/
def utf8ValidAux : Nat → List Nat → Bool
  | _, [] => true
  | 0, _ :: _ => false
  | f + 1, b :: rest =>
    if b ≤ 127 then utf8ValidAux f rest
    else if 194 ≤ b && b ≤ 223 then utf8Need1 (fun r => utf8ValidAux f r) 128 191 rest
    else if b = 224 then utf8Need2 (fun r => utf8ValidAux f r) 160 191 rest
    else if 225 ≤ b && b ≤ 236 then utf8Need2 (fun r => utf8ValidAux f r) 128 191 rest
    else if b = 237 then utf8Need2 (fun r => utf8ValidAux f r) 128 159 rest
    else if 238 ≤ b && b ≤ 239 then utf8Need2 (fun r => utf8ValidAux f r) 128 191 rest
    else if b = 240 then utf8Need3 (fun r => utf8ValidAux f r) 144 191 rest
    else if 241 ≤ b && b ≤ 243 then utf8Need3 (fun r => utf8ValidAux f r) 128 191 rest
    else if b = 244 then utf8Need3 (fun r => utf8ValidAux f r) 128 143 rest
    else false

/-- Validity of a whole byte string (`String::from_utf8` succeeding). -/
def utf8Valid (s : List Nat) : Bool := utf8ValidAux s.length s

/-! ## Decimal integers: `<i64 as Display>` and `str::parse` -/

/-- ASCII decimal digit value. -/
def digitVal (b : Nat) : Option Nat := if 48 ≤ b && b ≤ 57 then some (b - 48) else none

/-- Left-to-right accumulation of a digit string. -/
def parseDigitsAux : List Nat → Nat → Option Nat
  | [], acc => some acc
  | b :: rest, acc =>
    match digitVal b with
    | some d => parseDigitsAux rest (10 * acc + d)
    | none => none

/-- Parse a non-empty all-digit string to its value. -/
def parseDigits : List Nat → Option Nat
  | [] => none
  | l => parseDigitsAux l 0

/-- Embedding of `str::parse::<i64>`: optional sign, digits, range check. -/
def parseI64 (s : List Nat) : Option Int :=
  match s with
  | [] => none
  | b :: rest =>
    if b = 45 then
      (parseDigits rest).bind fun m =>
        if m ≤ 9223372036854775808 then some (-(m : Int)) else none
    else if b = 43 then
      (parseDigits rest).bind fun m =>
        if m ≤ 9223372036854775807 then some ((m : Int)) else none
    else
      (parseDigits (b :: rest)).bind fun m =>
        if m ≤ 9223372036854775807 then some ((m : Int)) else none

/-- Embedding of `str::parse::<u64>`: optional `+` sign, digits, range check
(`-` is not accepted for an unsigned integer). -/
def parseU64 (s : List Nat) : Option Nat :=
  match s with
  | [] => none
  | b :: rest =>
    if b = 43 then
      (parseDigits rest).bind fun m =>
        if m ≤ 18446744073709551615 then some m else none
    else
      (parseDigits (b :: rest)).bind fun m =>
        if m ≤ 18446744073709551615 then some m else none

/-- Fuelled helper producing the decimal digits of `n` (most significant
first) in front of `acc`; fuel `n` always suffices, since a number has no
more decimal digits than its own value. -/
def natDecAux : Nat → Nat → List Nat → List Nat
  | 0, n, acc => (n % 10 + 48) :: acc
  | f + 1, n, acc => if n < 10 then (n + 48) :: acc else natDecAux f (n / 10) ((n % 10 + 48) :: acc)

/-- Decimal representation of a natural number (`<u64 as Display>`). -/
def natDec (n : Nat) : List Nat := natDecAux n n []

/-- Decimal representation of a signed integer (`<i64 as Display>`). -/
def intDec (i : Int) : List Nat := if i < 0 then 45 :: natDec (-i).toNat else natDec i.toNat

/-! ## resp.rs: DecodeError and Value -/

/-- Embedding of `DecodeError` (resp.rs).  `parseInt` and `fromUtf8` carry no
payload here; the Rust variants wrap the underlying library error values. -/
inductive DecodeError where
  | emptyBytes
  | invalidFormat
  | lenMismatch (given_len actual_len : Nat)
  | unknownType (first_byte : Nat)
  | parseInt
  | fromUtf8
  deriving DecidableEq, Repr

/-- Embedding of `Value` (resp.rs).  `bulkString none` is the null
BulkString, `bulkString (some b)` holds payload bytes `b`; likewise for
`array`. -/
inductive Value where
  | simpleString (s : List Nat)
  | simpleError (s : List Nat)
  | integer (i : Int)
  | bulkString (bytes : Option (List Nat))
  | array (values : Option (List Value))
  deriving Repr

/-! ## resp.rs: encoding -/

mutual

/-- Embedding of `Value::encode` / the per-variant `_encode` methods
(resp.rs), producing the RESP byte form.  Token bytes: `+` 43, `-` 45,
`:` 58, `$` 36, `*` 42; CRLF is `13, 10`. -/
def encodeValue : Value → List Nat
  | .simpleString s => 43 :: s ++ [13, 10]
  | .simpleError s => 45 :: s ++ [13, 10]
  | .integer i => 58 :: intDec i ++ [13, 10]
  | .bulkString none => [36, 45, 49, 13, 10]
  | .bulkString (some b) => 36 :: natDec b.length ++ [13, 10] ++ b ++ [13, 10]
  | .array none => [42, 45, 49, 13, 10]
  | .array (some vs) => 42 :: natDec vs.length ++ [13, 10] ++ encodeList vs

/-- Concatenation of the encodings of the array elements (the `for` loop in
`Array::_encode`). -/
def encodeList : List Value → List Nat
  | [] => []
  | v :: rest => encodeValue v ++ encodeList rest

end

/-! ## resp.rs: decoding -/

/-- Embedding of `decode_to_string` (resp.rs): read up to the first CRLF,
drop the leading token byte, validate UTF-8.  Returns the string bytes and
the total bytes consumed. -/
def decodeToString (buf : List Nat) : Except DecodeError (List Nat × Nat) :=
  match readUntilCrlf buf with
  | some (b, size) => if utf8Valid b.tail then .ok (b.tail, size) else .error .fromUtf8
  | none => .error .invalidFormat

/-- Embedding of `decode_to_i64` (resp.rs). -/
def decodeToI64 (buf : List Nat) : Except DecodeError (Int × Nat) :=
  match decodeToString buf with
  | .ok (s, size) =>
    match parseI64 s with
    | some i => .ok (i, size)
    | none => .error .parseInt
  | .error e => .error e

/-- The element loop of `Array::_decode` (resp.rs), abstracted over the
decoder used for a single element: decode `count` consecutive elements,
accumulating the total bytes consumed. -/
def decodeElemsWith (dec : List Nat → Except DecodeError (Value × Nat)) :
    Nat → List Nat → Except DecodeError (List Value × Nat)
  | 0, _ => .ok ([], 0)
  | n + 1, buf =>
    match dec buf with
    | .ok (v, c) =>
      match decodeElemsWith dec n (buf.drop c) with
      | .ok (vs, c2) => .ok (v :: vs, c + c2)
      | .error e => .error e
    | .error e => .error e

/-- Embedding of `Value::decode_with_len` (resp.rs) together with the
per-variant `_decode` methods, with a fuel argument bounding the nesting
depth of arrays.  Each nesting level consumes at least the array header
(4 bytes or more) of the buffer, so the fuel `buf.length + 1` supplied by
`Value.decode` can never run out; the `0` branch is an unreachable guard. -/
def decodeWithLen : Nat → List Nat → Except DecodeError (Value × Nat)
  | 0, _ => .error .emptyBytes
  | fuel + 1, buf =>
    match buf with
    | [] => .error .emptyBytes
    | first :: _ =>
      if first = 43 then
        match decodeToString buf with
        | .ok (s, size) => .ok (.simpleString s, size)
        | .error e => .error e
      else if first = 45 then
        match decodeToString buf with
        | .ok (s, size) => .ok (.simpleError s, size)
        | .error e => .error e
      else if first = 58 then
        match decodeToI64 buf with
        | .ok (i, size) => .ok (.integer i, size)
        | .error e => .error e
      else if first = 36 then
        match decodeToI64 buf with
        | .ok (len, c) =>
          if len < 0 then .ok (.bulkString none, c)
          else
            match readUntilCrlf (buf.drop c) with
            | some (data, sz) =>
              if data.length = len.toNat then .ok (.bulkString (some data), c + sz)
              else .error (.lenMismatch len.toNat data.length)
            | none => .error .invalidFormat
        | .error e => .error e
      else if first = 42 then
        match decodeToI64 buf with
        | .ok (n, c) =>
          if n < 0 then .ok (.array none, c)
          else
            match decodeElemsWith (fun b => decodeWithLen fuel b) n.toNat (buf.drop c) with
            | .ok (vs, c2) => .ok (.array (some vs), c + c2)
            | .error e => .error e
        | .error e => .error e
      else .error (.unknownType first)


mutual

/-- Well-formedness of a `Value` for an exact encode/decode round trip:
text fields of simple strings and errors are CRLF-free valid UTF-8 (a Rust
`String` is always valid UTF-8; CRLF-freeness is the data-model invariant for
these unterminated text fields), integers lie within `i64`, bulk/array
lengths are representable in `i64` (true of any Rust `usize` length), and a
bulk payload contains no CRLF byte pair (without this the decoder stops at
the embedded CRLF and reports a length mismatch). -/
def wfValue : Value → Bool
  | .simpleString s => noCRLF s && utf8Valid s
  | .simpleError s => noCRLF s && utf8Valid s
  | .integer i => decide (-9223372036854775808 ≤ i) && decide (i ≤ 9223372036854775807)
  | .bulkString none => true
  | .bulkString (some b) => noCRLF b && decide (b.length ≤ 9223372036854775807)
  | .array none => true
  | .array (some vs) => decide (vs.length ≤ 9223372036854775807) && wfList vs

/-- All members of an array are well formed. -/
def wfList : List Value → Bool
  | [] => true
  | v :: rest => wfValue v && wfList rest

end

/-- Embedding of `Value::decode` (resp.rs): decode the front of the buffer
and drop the consumed-bytes count. -/
def Value.decode (buf : List Nat) : Except DecodeError Value :=
  match decodeWithLen (buf.length + 1) buf with
  | .ok (v, _) => .ok v
  | .error e => .error e

end Redis
namespace Redis

/-! ## cmd.rs: command parsing -/

/-- A Rust `BulkString` payload: `none` is the null bulk string. -/
abbrev Bulk := Option (List Nat)

/-- Embedding of `CommandError` (cmd.rs) / `ParseCommandError` (cmd.rs in the
`cmd/` module tree): the error kinds of command parsing. -/
inductive CommandError where
  | invalidCommand
  | wrongNumArgs
  | invalidArgument (val : Value)
  | decode (e : DecodeError)

/-- Embedding of `value_to_bulk_string` (cmd.rs). -/
def valueToBulkString : Value → Except CommandError Bulk
  | .bulkString b => .ok b
  | v => .error (.invalidArgument v)

/-- Embedding of `BulkString::as_str` (resp.rs): `some` only when the payload is non-null
and valid UTF-8. -/
def Bulk.asStr : Bulk → Option (List Nat)
  | some s => if utf8Valid s then some s else none
  | none => none

/-- Embedding of `bulk_string_to_string` (cmd.rs). -/
def bulkStringToString (b : Bulk) : Except CommandError (List Nat) :=
  match Bulk.asStr b with
  | some s => .ok s
  | none => .error (.invalidArgument (.bulkString b))

/-- Embedding of `bulk_string_to_uint64` (cmd.rs); a failed `u64` parse is reported as a
wrapped decode error (`DecodeError::ParseInt`). -/
def bulkStringToUint64 (b : Bulk) : Except CommandError Nat :=
  match bulkStringToString b with
  | .ok s =>
    match parseU64 s with
    | some m => .ok m
    | none => .error (.decode .parseInt)
  | .error e => .error e

/-- Required-argument phase of `consume_args_from_iter` (cmd.rs): each of the
`necessary` tokens must be present (else WrongNumArgs) and be a BulkString
(else InvalidArgument). -/
def consumeRequired : List Value → Nat → Except CommandError (List Bulk × List Value)
  | rest, 0 => .ok ([], rest)
  | [], _ + 1 => .error .wrongNumArgs
  | v :: rest, n + 1 =>
    match valueToBulkString v with
    | .ok b =>
      match consumeRequired rest n with
      | .ok (bs, r) => .ok (b :: bs, r)
      | .error e => .error e
    | .error e => .error e

/-- Optional-argument phase of `consume_args_from_iter` (cmd.rs): missing
optional tokens are fine, present ones must be bulk strings. -/
def consumeOptional : List Value → Nat → Except CommandError (List Bulk × List Value)
  | rest, 0 => .ok ([], rest)
  | [], _ + 1 => .ok ([], [])
  | v :: rest, n + 1 =>
    match valueToBulkString v with
    | .ok b =>
      match consumeOptional rest n with
      | .ok (bs, r) => .ok (b :: bs, r)
      | .error e => .error e
    | .error e => .error e

/-- Embedding of `consume_args_from_iter` (cmd.rs): all required args, then up to
`optional` optional args, then WrongNumArgs if any token remains. -/
def consumeArgsFromIter (vals : List Value) (necessary optional : Nat) :
    Except CommandError (List Bulk) :=
  match consumeRequired vals necessary with
  | .ok (req, r1) =>
    match consumeOptional r1 optional with
    | .ok (opt, r2) =>
      match r2 with
      | [] => .ok (req ++ opt)
      | _ :: _ => .error .wrongNumArgs
    | .error e => .error e
  | .error e => .error e

/-- ASCII lower-casing of one byte.  The Rust code lower-cases decoded UTF-8
strings with Unicode `to_lowercase`; on the ASCII command names, the
`replication` section name and the `px` keyword compared against, the two
agree (no other string Unicode-lowercases to exactly these ASCII names). -/
def asciiLower (b : Nat) : Nat := if 65 ≤ b ∧ b ≤ 90 then b + 32 else b

/-- Embedding of `str::to_lowercase` on the byte model. -/
def lowerBytes (s : List Nat) : List Nat := s.map asciiLower

/-- Embedding of `str::eq_ignore_ascii_case`. -/
def eqIgnoreAsciiCase (a b : List Nat) : Bool := lowerBytes a == lowerBytes b

/-- Embedding of `PingArg` (cmd.rs / cmd/ping.rs). -/
structure PingArg where
  msg : Option Bulk

/-- Embedding of `PingArg::parse` / `parse_arg`: zero required and one optional token. -/
def PingArg.parseArg (vals : List Value) : Except CommandError PingArg :=
  match consumeArgsFromIter vals 0 1 with
  | .ok args => .ok ⟨args[0]?⟩
  | .error e => .error e

/-- Embedding of `EchoArg` (cmd.rs / cmd/echo.rs). -/
structure EchoArg where
  msg : Bulk

/-- Embedding of `EchoArg::parse` / `parse_arg`: one required token.  The empty-list arm
is unreachable (one required argument was just consumed; Rust unwraps). -/
def EchoArg.parseArg (vals : List Value) : Except CommandError EchoArg :=
  match consumeArgsFromIter vals 1 0 with
  | .ok args =>
    match args with
    | m :: _ => .ok ⟨m⟩
    | [] => .error .wrongNumArgs
  | .error e => .error e

/-- Embedding of `InfoSection` (cmd.rs / cmd/info.rs). -/
inductive InfoSection where
  | default
  | replication
  deriving DecidableEq

/-- Embedding of `InfoArg` (cmd.rs / cmd/info.rs).  The Rust field is named `section`,
which is a Lean keyword. -/
structure InfoArg where
  sec : InfoSection
  deriving DecidableEq

/-- Byte string `replication`. -/
def replicationBytes : List Nat := [114, 101, 112, 108, 105, 99, 97, 116, 105, 111, 110]

/-- Embedding of `InfoArg::parse_info_section`: an absent argument acts as the empty
string; an unrecognized section (anything whose lower-casing is not
`replication`) is Default; a null or non-UTF-8 argument is
InvalidArgument. -/
def InfoArg.parseInfoSection (optBs : Option Bulk) : Except CommandError InfoSection :=
  match optBs with
  | some bs =>
    match Bulk.asStr bs with
    | some s => .ok (if lowerBytes s = replicationBytes then .replication else .default)
    | none => .error (.invalidArgument (.bulkString bs))
  | none => .ok .default

/-- Embedding of `InfoArg::parse` / `parse_arg`: zero required and one optional token. -/
def InfoArg.parseArg (vals : List Value) : Except CommandError InfoArg :=
  match consumeArgsFromIter vals 0 1 with
  | .ok args =>
    match InfoArg.parseInfoSection args[0]? with
    | .ok s => .ok ⟨s⟩
    | .error e => .error e
  | .error e => .error e

/-- Embedding of `SetArg` (cmd.rs / cmd/set.rs); the expiry is a duration in
milliseconds. -/
structure SetArg where
  key : Bulk
  value : Bulk
  expiry : Option Nat

/-- Byte string `px`. -/
def pxBytes : List Nat := [112, 120]

/-- Embedding of `SetArg::parse` / `parse_arg`: two required and up to two optional
tokens; a third token must be (case-insensitively) `px` followed by a
millisecond count, any other third token is InvalidArgument.  The
one-element and empty arms are unreachable (two required arguments were just
consumed; Rust unwraps). -/
def SetArg.parseArg (vals : List Value) : Except CommandError SetArg :=
  match consumeArgsFromIter vals 2 2 with
  | .ok args =>
    match args with
    | key :: value :: rest =>
      match rest with
      | [] => .ok ⟨key, value, none⟩
      | w :: rest2 =>
        match bulkStringToString w with
        | .ok s =>
          if eqIgnoreAsciiCase s pxBytes then
            match rest2 with
            | x :: _ =>
              match bulkStringToUint64 x with
              | .ok ms => .ok ⟨key, value, some ms⟩
              | .error e => .error e
            | [] => .error .wrongNumArgs
          else .error (.invalidArgument (.bulkString w))
        | .error e => .error e
    | _ => .error .wrongNumArgs
  | .error e => .error e

/-- Embedding of `GetArg` (cmd.rs / cmd/get.rs). -/
structure GetArg where
  key : Bulk

/-- Embedding of `GetArg::parse` / `parse_arg`: one required token.  The empty arm is
unreachable (Rust unwraps). -/
def GetArg.parseArg (vals : List Value) : Except CommandError GetArg :=
  match consumeArgsFromIter vals 1 0 with
  | .ok args =>
    match args with
    | k :: _ => .ok ⟨k⟩
    | [] => .error .wrongNumArgs
  | .error e => .error e

/-- Embedding of `Command` (cmd.rs): the commands the handler dispatches on. -/
inductive Command where
  | ping (arg : PingArg)
  | echo (arg : EchoArg)
  | info (arg : InfoArg)
  | set (arg : SetArg)
  | get (arg : GetArg)

def pingBytes : List Nat := [112, 105, 110, 103]
def echoBytes : List Nat := [101, 99, 104, 111]
def setBytes : List Nat := [115, 101, 116]
def getBytes : List Nat := [103, 101, 116]
def infoBytes : List Nat := [105, 110, 102, 111]

/-- Embedding of `Command::get_command_str_from_iter` (cmd.rs): the first element must be
a non-null UTF-8 BulkString. -/
def getCommandStrFromIter : List Value → Except CommandError (List Nat × List Value)
  | [] => .error .invalidCommand
  | first :: rest =>
    match first with
    | .bulkString b =>
      match Bulk.asStr b with
      | some s => .ok (s, rest)
      | none => .error .invalidCommand
    | _ => .error .invalidCommand

/-- Embedding of `Command::try_from` (cmd.rs): require a non-null Array, read the
case-insensitive command name, dispatch to the argument parser. -/
def Command.tryFrom (value : Value) : Except CommandError Command :=
  match value with
  | .array (some values) =>
    match getCommandStrFromIter values with
    | .ok (cmd, rest) =>
      let lower := lowerBytes cmd
      if lower = pingBytes then
        match PingArg.parseArg rest with
        | .ok a => .ok (.ping a)
        | .error e => .error e
      else if lower = echoBytes then
        match EchoArg.parseArg rest with
        | .ok a => .ok (.echo a)
        | .error e => .error e
      else if lower = setBytes then
        match SetArg.parseArg rest with
        | .ok a => .ok (.set a)
        | .error e => .error e
      else if lower = getBytes then
        match GetArg.parseArg rest with
        | .ok a => .ok (.get a)
        | .error e => .error e
      else if lower = infoBytes then
        match InfoArg.parseArg rest with
        | .ok a => .ok (.info a)
        | .error e => .error e
      else .error .invalidCommand
    | .error e => .error e
  | _ => .error .invalidCommand

/-- Embedding of `Command::parse` (cmd.rs). -/
def Command.parse (buf : List Nat) : Except CommandError Command :=
  match Value.decode buf with
  | .ok v => Command.tryFrom v
  | .error e => .error (.decode e)

end Redis
namespace Redis

/-! ## handler.rs: store and handlers -/

/-- Embedding of `StoredData` (handler.rs): value plus optional absolute deadline.
`SystemTime` instants are modelled as `Nat` milliseconds. -/
structure StoredData where
  value : Bulk
  deadline : Option Nat
  deriving DecidableEq

/-- Embedding of `StoredData::has_expired`: a deadline exists and `now` is strictly past
it. -/
def StoredData.hasExpired (d : StoredData) (now : Nat) : Bool :=
  match d.deadline with
  | some t => decide (now > t)
  | none => false

/-- The shared `HashMap<BulkString, StoredData>`, as a function from keys to
optional entries (keys are unique; insertion order is irrelevant). -/
abbrev Store := Bulk → Option StoredData

/-- Embedding of the `HashMap` overwrite-or-insert (both `Entry::Occupied` and
`Entry::Vacant` store the new data at the key). -/
def Store.insert (m : Store) (k : Bulk) (d : StoredData) : Store :=
  fun q => if q = k then some d else m q

/-- Embedding of `Entry::Occupied::remove`. -/
def Store.remove (m : Store) (k : Bulk) : Store :=
  fun q => if q = k then none else m q

def Store.empty : Store := fun _ => none

def okBytes : List Nat := [79, 75]
def pongBytes : List Nat := [80, 79, 78, 71]

/-- Embedding of `SetHandler::handle` (handler.rs / cmd/set.rs): compute the absolute
deadline (`now + expiry` when an expiry was given, else none), then
overwrite any prior entry unconditionally and return SimpleString "OK".
`SystemTime::now().checked_add` is modelled as total `Nat` addition (no
overflow on unbounded naturals). -/
def SetHandler.handle (now : Nat) (arg : SetArg) (map : Store) : Value × Store :=
  let deadline := arg.expiry.map fun e => now + e
  let data : StoredData := ⟨arg.value, deadline⟩
  (.simpleString okBytes, map.insert arg.key data)

/-- Embedding of `GetHandler::handle` (handler.rs / cmd/get.rs), with the two lock
acquisitions made explicit: `readMap`/`readNow` are the store contents and
clock while the read lock is held; `writeMap`/`writeNow` are the contents
and clock when the write lock is (or would be) acquired — a concurrent Set
may have changed the store in between.  Returns the reply and the final
store contents. -/
def GetHandler.handle (readNow : Nat) (readMap : Store) (writeNow : Nat)
    (writeMap : Store) (arg : GetArg) : Value × Store :=
  match readMap arg.key with
  | none => (.bulkString none, writeMap)
  | some data =>
    if !(data.hasExpired readNow) then (.bulkString data.value, writeMap)
    else
      match writeMap arg.key with
      | some e =>
        if e.hasExpired writeNow then (.bulkString none, writeMap.remove arg.key)
        else (.bulkString none, writeMap)
      | none => (.bulkString none, writeMap)

/-- Execution of `GetHandler::handle` when nothing runs between the two lock
acquisitions: one store, one clock. -/
def GetHandler.handleSeq (now : Nat) (map : Store) (arg : GetArg) : Value × Store :=
  GetHandler.handle now map now map arg

/-- Embedding of `PingHandler::handle` (cmd/ping.rs): no message → SimpleString "PONG";
with a message → Array[BulkString "PONG", BulkString msg]. -/
def PingHandler.handle (arg : PingArg) : Value :=
  match arg.msg with
  | some msg => .array (some [.bulkString (some pongBytes), .bulkString msg])
  | none => .simpleString pongBytes

/-- Embedding of `EchoHandler::handle` (cmd/echo.rs): the message unchanged. -/
def EchoHandler.handle (arg : EchoArg) : Value := .bulkString arg.msg

def roleSlaveBytes : List Nat := [114, 111, 108, 101, 58, 115, 108, 97, 118, 101]
def roleMasterBytes : List Nat := [114, 111, 108, 101, 58, 109, 97, 115, 116, 101, 114]
def masterReplidLabel : List Nat :=
  [109, 97, 115, 116, 101, 114, 95, 114, 101, 112, 108, 105, 100, 58]
def masterReplOffsetLabel : List Nat :=
  [109, 97, 115, 116, 101, 114, 95, 114, 101, 112, 108, 95, 111, 102, 102, 115, 101, 116, 58]

/-- Embedding of `InfoHandler::handle_replication` (handler.rs): replica → BulkString
"role:slave"; master → BulkString "role:master" plus, when a replication
id/offset pair exists, `master_replid:`/`master_repl_offset:` lines, all
joined with the newline byte 10. -/
def InfoHandler.handleReplication (isReplica : Bool)
    (masterReplIdAndOffset : Option (List Nat × Nat)) : Value :=
  if isReplica then .bulkString (some roleSlaveBytes)
  else
    match masterReplIdAndOffset with
    | some (id, off) =>
      .bulkString (some (roleMasterBytes ++ 10 :: masterReplidLabel ++ id ++
        10 :: masterReplOffsetLabel ++ natDec off))
    | none => .bulkString (some roleMasterBytes)

/-- Embedding of `InfoHandler::handle` (handler.rs): the Default section is `todo!()` —
a panic, modelled as `none`. -/
def InfoHandler.handle (isReplica : Bool) (m : Option (List Nat × Nat))
    (arg : InfoArg) : Option Value :=
  match arg.sec with
  | .replication => some (InfoHandler.handleReplication isReplica m)
  | .default => none

/-- Embedding of `CommandHandlerConfig` (handler.rs). -/
structure CommandHandlerConfig where
  isReplica : Bool
  masterReplIdAndOffset : Option (List Nat × Nat)

/-- Embedding of `CommandHandler::handle` (handler.rs): dispatch one parsed command
against the store.  `HandleCommandError` is an empty enum, so the only
failure mode is the `todo!()` panic inside the Info handler, modelled as
`none`.  Returns the reply and the store contents afterwards. -/
def CommandHandler.handle (now : Nat) (cfg : CommandHandlerConfig) (map : Store)
    (cmd : Command) : Option (Value × Store) :=
  match cmd with
  | .ping arg => some (PingHandler.handle arg, map)
  | .echo arg => some (EchoHandler.handle arg, map)
  | .info arg =>
    match InfoHandler.handle cfg.isReplica cfg.masterReplIdAndOffset arg with
    | some v => some (v, map)
    | none => none
  | .set arg => some (SetHandler.handle now arg map)
  | .get arg => some (GetHandler.handleSeq now map arg)

/-! ## redis.rs: the engine loop -/

/-- The engine loop of `Redis::start`: the single consumer drains the bounded
request channel in arrival order, fully executing each command (and sending
its reply) before receiving the next; requests are commands paired with the
`SystemTime::now()` value at their execution.  A `todo!()` panic (Info with
the Default section) kills the engine task, so no later request executes. -/
def engineRun (cfg : CommandHandlerConfig) : Store → List (Nat × Command) → Store × List Value
  | map, [] => (map, [])
  | map, (now, cmd) :: rest =>
    match CommandHandler.handle now cfg map cmd with
    | some (v, m2) =>
      match engineRun cfg m2 rest with
      | (mf, vs) => (mf, v :: vs)
    | none => (map, [])

/-! ## replica.rs: replication handshake -/

/-- Embedding of `SessionError` (session.rs), reduced to the variant the handshake model
can produce: a read that returns no frame (`NoResponse`). -/
inductive SessionFailure where
  | noResponse
  deriving DecidableEq

/-- Embedding of `ClientError` (client.rs). -/
inductive ClientError where
  | invalidArg
  | invalidResponse
  | session (e : SessionFailure)
  deriving DecidableEq

/-- Embedding of `ReplicationError` (replica.rs); `transport` stands for the wrapped
tokio I/O error variant. -/
inductive ReplicationError where
  | cannotConnectMaster
  | client (e : ClientError)
  | transport
  deriving DecidableEq

/-- Embedding of `Response::is_simple_string` (session.rs): equality with the simple
string holding `expected`. -/
def isSimpleString (v : Value) (expected : List Nat) : Bool :=
  match v with
  | .simpleString s => s == expected
  | _ => false

/-- Element-wise comparison of an array's values with a list of bulk
strings. -/
def valuesAreBulkStrings : List Value → List Bulk → Bool
  | [], [] => true
  | .bulkString a :: vs, b :: bs => a == b && valuesAreBulkStrings vs bs
  | _, _ => false

/-- Embedding of `Response::is_bulk_string_array` (session.rs). -/
def isBulkStringArray (v : Value) (bss : List Bulk) : Bool :=
  match v with
  | .array (some vs) => valuesAreBulkStrings vs bss
  | _ => false

/-- Embedding of `PingClient::ping` (cmd/ping.rs) against a responder modelled by the
sequence of reply frames it will send; an exhausted sequence models a read
of zero bytes (`SessionError::NoResponse`).  With no message the reply must
be exactly SimpleString "PONG"; with a message, Array[BulkString "PONG",
BulkString msg].  Returns the reply and the frames left. -/
def PingClient.ping (arg : PingArg) (replies : List Value) :
    Except ClientError (Value × List Value) :=
  match replies with
  | [] => .error (.session .noResponse)
  | r :: rest =>
    match arg.msg with
    | some m =>
      if isBulkStringArray r [some pongBytes, m] then .ok (r, rest)
      else .error .invalidResponse
    | none =>
      if isSimpleString r pongBytes then .ok (r, rest) else .error .invalidResponse

/-- Embedding of `ReplConfArgConfig` (cmd/replconf.rs). -/
inductive ReplConfArgConfig where
  | listeningPort (port : Nat)
  | capabilities (s : List Nat)

/-- Embedding of `ReplConfArg` (cmd/replconf.rs). -/
structure ReplConfArg where
  config : ReplConfArgConfig

/-- Embedding of `ReplConfClient::replconf` (cmd/replconf.rs): the reply must be exactly
SimpleString "OK". -/
def ReplConfClient.replconf (_arg : ReplConfArg) (replies : List Value) :
    Except ClientError (Value × List Value) :=
  match replies with
  | [] => .error (.session .noResponse)
  | r :: rest =>
    if isSimpleString r okBytes then .ok (r, rest) else .error .invalidResponse

/-- Byte string `psync2`. -/
def psync2Bytes : List Nat := [112, 115, 121, 110, 99, 50]

/-- Embedding of `Replication::connect_to_master` (replica.rs), against a master modelled
by its reply frames: Ping expecting PONG, then REPLCONF listening-port and
REPLCONF capa psync2 each expecting OK, stopping at the first failing step.
Returns the outcome together with how many requests were sent (each client
step sends exactly one request before reading its reply), so a failure at
step k sends k requests and never attempts a later step. -/
def Replication.connectToMaster (listeningPort : Nat) (replies : List Value) :
    Except ReplicationError Unit × Nat :=
  match PingClient.ping ⟨none⟩ replies with
  | .error e => (.error (.client e), 1)
  | .ok (_, rest1) =>
    match ReplConfClient.replconf ⟨.listeningPort listeningPort⟩ rest1 with
    | .error e => (.error (.client e), 2)
    | .ok (_, rest2) =>
      match ReplConfClient.replconf ⟨.capabilities psync2Bytes⟩ rest2 with
      | .error e => (.error (.client e), 3)
      | .ok _ => (.ok (), 3)

end Redis
namespace Redis

/-- A wire command frame: an Array whose first element is the BulkString
command name followed by BulkString argument tokens (the shape §3 of the
spec gives for every command). -/
def commandOfBulks (name : List Nat) (args : List Bulk) : Value :=
  .array (some (.bulkString (some name) :: args.map Value.bulkString))

end Redis
namespace Redis

/-- Concrete well-formed value exercising null BulkString, null Array, empty
BulkString, empty Array, negative integer, simple string and nested arrays of
mixed types. -/
def c1WitnessValue : Value :=
  .array (some [.bulkString none, .array none, .bulkString (some [104, 105]),
    .array (some []), .integer (-42), .simpleString [79, 75],
    .array (some [.bulkString (some []), .bulkString none])])

end Redis
namespace Redis

/-! ## Lemmas about `readUntilCrlf` -/

theorem noCRLF_tail {b : Nat} {s : List Nat} (h : noCRLF (b :: s) = true) : noCRLF s = true := by
  cases s with
  | nil => rfl
  | cons x t => simp only [noCRLF, Bool.and_eq_true] at h; exact h.2

theorem noCRLF_cons {b : Nat} {s : List Nat} (hb : b ≠ 13) (hs : noCRLF s = true) :
    noCRLF (b :: s) = true := by
  cases s with
  | nil => rfl
  | cons x t =>
    simp only [noCRLF, Bool.and_eq_true]
    exact ⟨by simp [hb], hs⟩

theorem noCRLF_head {b b2 : Nat} {s : List Nat} (h : noCRLF (b :: b2 :: s) = true) :
    ¬(b = 13 ∧ b2 = 10) := by
  simp only [noCRLF, Bool.and_eq_true] at h
  intro hc
  have := h.1
  simp [hc.1, hc.2] at this

theorem readUntilCrlf_append_noCRLF {d : List Nat} (rest : List Nat) (h : noCRLF d = true) :
    readUntilCrlf (d ++ 13 :: 10 :: rest) = some (d, d.length + 2) := by
  induction d with
  | nil => simp [readUntilCrlf]
  | cons b t ih =>
    have hrec := ih (noCRLF_tail h)
    cases t with
    | nil =>
      by_cases hb : b = 13
      · subst hb; simp [readUntilCrlf]
      · simp [readUntilCrlf, hb]
    | cons x u =>
      have hpair : ¬(b = 13 ∧ x = 10) := noCRLF_head h
      simp only [List.cons_append] at hrec ⊢
      rw [readUntilCrlf]
      simp only [hpair, if_false, hrec]
      simp

theorem readUntilCrlf_spec :
    ∀ {buf d : List Nat} {c : Nat}, readUntilCrlf buf = some (d, c) →
      c = d.length + 2 ∧ noCRLF d = true ∧ ∃ rest, buf = d ++ 13 :: 10 :: rest := by
  intro buf
  induction buf with
  | nil => intro d c h; simp [readUntilCrlf] at h
  | cons b t ih =>
    intro d c h
    cases t with
    | nil => simp [readUntilCrlf] at h
    | cons b2 u =>
      by_cases hpair : b = 13 ∧ b2 = 10
      · rw [readUntilCrlf, if_pos hpair] at h
        simp only [Option.some.injEq, Prod.mk.injEq] at h
        obtain ⟨hd, hc⟩ := h
        subst hd; subst hc
        exact ⟨rfl, rfl, u, by simp [hpair.1, hpair.2]⟩
      · rw [readUntilCrlf, if_neg hpair] at h
        cases hrm : readUntilCrlf (b2 :: u) with
        | none => simp [hrm] at h
        | some p =>
          obtain ⟨d0, c0⟩ := p
          rw [hrm] at h
          simp only [Option.map_some', Option.some.injEq, Prod.mk.injEq] at h
          obtain ⟨hd, hc⟩ := h
          subst hd; subst hc
          obtain ⟨hc0, hno, rest, hshape⟩ := ih hrm
          refine ⟨by simp [hc0], ?_, rest, by rw [List.cons_append, ← hshape]⟩
          cases d0 with
          | nil => rfl
          | cons x u2 =>
            have hx : b2 = x := by
              simp only [List.cons_append, List.cons.injEq] at hshape
              exact hshape.1
            subst hx
            simp only [noCRLF, Bool.and_eq_true]
            refine ⟨?_, hno⟩
            by_cases hb : b = 13
            · have hb2 : ¬ b2 = 10 := fun hcc => hpair ⟨hb, hcc⟩
              simp [hb, hb2]
            · simp [hb]

theorem readUntilCrlf_extend {buf d s : List Nat} {c : Nat}
    (h : readUntilCrlf buf = some (d, c)) : readUntilCrlf (buf ++ s) = some (d, c) := by
  obtain ⟨hc, hno, rest, hshape⟩ := readUntilCrlf_spec h
  subst hshape
  rw [List.append_assoc]
  simp only [List.cons_append]
  rw [readUntilCrlf_append_noCRLF (rest ++ s) hno, hc]

theorem readUntilCrlf_le {buf d : List Nat} {c : Nat}
    (h : readUntilCrlf buf = some (d, c)) : c ≤ buf.length := by
  obtain ⟨hc, _, rest, hshape⟩ := readUntilCrlf_spec h
  subst hshape
  simp [hc]

end Redis
namespace Redis

/-! ## Lemmas about digit strings and decimal representations -/

theorem parseDigitsAux_digits :
    ∀ {l : List Nat} {a m : Nat}, parseDigitsAux l a = some m → ∀ b ∈ l, 48 ≤ b ∧ b ≤ 57 := by
  intro l
  induction l with
  | nil => intro a m _ b hb; simp at hb
  | cons x t ih =>
    intro a m h b hb
    rw [parseDigitsAux] at h
    cases hdv : digitVal x with
    | none => rw [hdv] at h; simp at h
    | some d =>
      rw [hdv] at h
      rcases List.mem_cons.mp hb with hb | hb
      · subst hb
        rw [digitVal] at hdv
        by_cases hx : 48 ≤ b ∧ b ≤ 57
        · exact hx
        · rw [if_neg (by simpa using hx)] at hdv
          exact absurd hdv (by simp)
      · exact ih h b hb

theorem parseDigits_digits {l : List Nat} {m : Nat} (h : parseDigits l = some m) :
    ∀ b ∈ l, 48 ≤ b ∧ b ≤ 57 := by
  cases l with
  | nil => intro b hb; simp at hb
  | cons x t => exact parseDigitsAux_digits h

theorem digit_facts {b : Nat} (h : 48 ≤ b ∧ b ≤ 57) : b ≤ 127 ∧ b ≠ 13 ∧ b ≠ 10 := by omega

theorem parseI64_bytes {s : List Nat} {i : Int} (h : parseI64 s = some i) :
    ∀ b ∈ s, b ≤ 127 ∧ b ≠ 13 ∧ b ≠ 10 := by
  cases s with
  | nil => intro b hb; simp at hb
  | cons x t =>
    rw [parseI64] at h
    intro b hb
    by_cases h45 : x = 45
    · rw [if_pos h45] at h
      cases hpd : parseDigits t with
      | none => rw [hpd] at h; simp at h
      | some m =>
        rcases List.mem_cons.mp hb with hb | hb
        · subst hb; omega
        · exact digit_facts (parseDigits_digits hpd b hb)
    · rw [if_neg h45] at h
      by_cases h43 : x = 43
      · rw [if_pos h43] at h
        cases hpd : parseDigits t with
        | none => rw [hpd] at h; simp at h
        | some m =>
          rcases List.mem_cons.mp hb with hb | hb
          · subst hb; omega
          · exact digit_facts (parseDigits_digits hpd b hb)
      · rw [if_neg h43] at h
        cases hpd : parseDigits (x :: t) with
        | none => rw [hpd] at h; simp at h
        | some m => exact digit_facts (parseDigits_digits hpd b hb)

theorem utf8ValidAux_ascii :
    ∀ {f : Nat} {s : List Nat}, (∀ b ∈ s, b ≤ 127) → s.length ≤ f → utf8ValidAux f s = true := by
  intro f
  induction f with
  | zero =>
    intro s h hlen
    cases s with
    | nil => rfl
    | cons x t => simp at hlen
  | succ g ih =>
    intro s h hlen
    cases s with
    | nil => rfl
    | cons x t =>
      have hx : x ≤ 127 := h x (by simp)
      have ht := ih (fun b hb => h b (List.mem_cons_of_mem x hb)) (by simp only [List.length_cons] at hlen; omega)
      simp only [utf8ValidAux, if_pos hx]
      exact ht

theorem utf8Valid_ascii {s : List Nat} (h : ∀ b ∈ s, b ≤ 127) : utf8Valid s = true :=
  utf8ValidAux_ascii h (Nat.le_refl _)

theorem noCRLF_of_ne13 : ∀ {s : List Nat}, (∀ b ∈ s, b ≠ 13) → noCRLF s = true := by
  intro s
  induction s with
  | nil => intro _; rfl
  | cons x t ih =>
    intro h
    have ht : noCRLF t = true := ih fun b hb => h b (by simp [hb])
    exact noCRLF_cons (h x (by simp)) ht

theorem natDecAux_digits :
    ∀ {f n : Nat} {acc : List Nat}, (∀ b ∈ acc, 48 ≤ b ∧ b ≤ 57) →
      ∀ b ∈ natDecAux f n acc, 48 ≤ b ∧ b ≤ 57 := by
  intro f
  induction f with
  | zero =>
    intro n acc hacc b hb
    rw [natDecAux] at hb
    rcases List.mem_cons.mp hb with hb | hb
    · subst hb
      have := Nat.mod_lt n (show 0 < 10 by norm_num)
      omega
    · exact hacc b hb
  | succ g ih =>
    intro n acc hacc b hb
    rw [natDecAux] at hb
    by_cases hn : n < 10
    · rw [if_pos hn] at hb
      rcases List.mem_cons.mp hb with hb | hb
      · subst hb; omega
      · exact hacc b hb
    · rw [if_neg hn] at hb
      refine ih ?_ b hb
      intro b2 hb2
      rcases List.mem_cons.mp hb2 with hb2 | hb2
      · subst hb2
        have := Nat.mod_lt n (show 0 < 10 by norm_num)
        omega
      · exact hacc b2 hb2

theorem natDec_digits {n : Nat} : ∀ b ∈ natDec n, 48 ≤ b ∧ b ≤ 57 :=
  natDecAux_digits (by intro b hb; simp at hb)

theorem natDecAux_ne_nil : ∀ {f n : Nat} {acc : List Nat}, natDecAux f n acc ≠ [] := by
  intro f
  induction f with
  | zero => intro n acc; rw [natDecAux]; simp
  | succ g ih =>
    intro n acc
    rw [natDecAux]
    by_cases hn : n < 10
    · rw [if_pos hn]; simp
    · rw [if_neg hn]; exact ih

theorem natDecAux_parse :
    ∀ {f n : Nat} {acc : List Nat}, n < 10 ^ (f + 1) →
      parseDigitsAux (natDecAux f n acc) 0 = parseDigitsAux acc n := by
  intro f
  induction f with
  | zero =>
    intro n acc hn
    have hn10 : n < 10 := by simpa using hn
    rw [natDecAux, parseDigitsAux]
    have : digitVal (n % 10 + 48) = some (n % 10) := by
      rw [digitVal, if_pos (by simp; omega)]
      simp
    rw [this]
    simp [Nat.mod_eq_of_lt hn10]
  | succ g ih =>
    intro n acc hn
    rw [natDecAux]
    by_cases h10 : n < 10
    · rw [if_pos h10, parseDigitsAux]
      have : digitVal (n + 48) = some n := by
        rw [digitVal, if_pos (by simp; omega)]
        simp
      rw [this]
      simp
    · rw [if_neg h10]
      have hdiv : n / 10 < 10 ^ (g + 1) := by
        rw [Nat.div_lt_iff_lt_mul (by norm_num)]
        calc n < 10 ^ (g + 1 + 1) := hn
        _ = 10 ^ (g + 1) * 10 := by ring
      rw [ih hdiv, parseDigitsAux]
      have : digitVal (n % 10 + 48) = some (n % 10) := by
        rw [digitVal, if_pos (by simp; omega)]
        simp
      rw [this]
      simp only [Nat.mul_zero, Nat.zero_add]
      rw [show 10 * (n / 10) + n % 10 = n from Nat.div_add_mod n 10]

theorem parseDigits_natDec (n : Nat) : parseDigits (natDec n) = some n := by
  have hne : natDec n ≠ [] := natDecAux_ne_nil
  have hlt : n < 10 ^ (n + 1) := by
    calc n < 2 ^ n := Nat.lt_two_pow n
    _ ≤ 10 ^ n := Nat.pow_le_pow_left (by norm_num) n
    _ ≤ 10 ^ (n + 1) := Nat.pow_le_pow_right (by norm_num) (by omega)
  have hmain : parseDigitsAux (natDec n) 0 = some n := by
    rw [natDec, natDecAux_parse hlt, parseDigitsAux]
  cases hnd : natDec n with
  | nil => exact absurd hnd hne
  | cons x t =>
    have hpd : parseDigits (x :: t) = parseDigitsAux (x :: t) 0 := rfl
    rw [hpd, ← hnd]
    exact hmain

end Redis
namespace Redis

/-! ## Decimal display/parse round trip -/

theorem natDec_head_digit {n : Nat} :
    ∃ x t, natDec n = x :: t ∧ 48 ≤ x ∧ x ≤ 57 := by
  cases hnd : natDec n with
  | nil => exact absurd hnd natDecAux_ne_nil
  | cons x t =>
    have hx := natDec_digits (n := n) x (by rw [hnd]; simp)
    exact ⟨x, t, rfl, hx.1, hx.2⟩

theorem parseI64_natDec {n : Nat} (h : n ≤ 9223372036854775807) :
    parseI64 (natDec n) = some (n : Int) := by
  obtain ⟨x, t, hnd, hx1, hx2⟩ := natDec_head_digit (n := n)
  rw [hnd, parseI64]
  rw [if_neg (by omega), if_neg (by omega), ← hnd, parseDigits_natDec]
  simp [h]

theorem parseI64_intDec {i : Int} (h1 : -9223372036854775808 ≤ i)
    (h2 : i ≤ 9223372036854775807) : parseI64 (intDec i) = some i := by
  by_cases hi : i < 0
  · rw [intDec, if_pos hi, parseI64, if_pos rfl, parseDigits_natDec]
    have hb : (-i).toNat ≤ 9223372036854775808 := by omega
    rw [Option.bind]
    simp only [if_pos hb, Option.some.injEq]
    omega
  · rw [intDec, if_neg hi]
    have hge : 0 ≤ i := by omega
    have : i.toNat ≤ 9223372036854775807 := by omega
    rw [parseI64_natDec this]
    simp [Int.toNat_of_nonneg hge]

theorem natDec_ascii {n : Nat} : ∀ b ∈ natDec n, b ≤ 127 := by
  intro b hb
  have := natDec_digits (n := n) b hb
  omega

theorem natDec_noCRLF {n : Nat} : noCRLF (natDec n) = true := by
  refine noCRLF_of_ne13 ?_
  intro b hb
  have := natDec_digits (n := n) b hb
  omega

theorem natDec_utf8 {n : Nat} : utf8Valid (natDec n) = true :=
  utf8Valid_ascii natDec_ascii

theorem intDec_ascii {i : Int} : ∀ b ∈ intDec i, b ≤ 127 := by
  intro b hb
  rw [intDec] at hb
  by_cases hi : i < 0
  · rw [if_pos hi] at hb
    rcases List.mem_cons.mp hb with hb | hb
    · omega
    · exact natDec_ascii b hb
  · rw [if_neg hi] at hb
    exact natDec_ascii b hb

theorem intDec_noCRLF {i : Int} : noCRLF (intDec i) = true := by
  refine noCRLF_of_ne13 ?_
  intro b hb
  rw [intDec] at hb
  by_cases hi : i < 0
  · rw [if_pos hi] at hb
    rcases List.mem_cons.mp hb with hb | hb
    · omega
    · have := natDec_digits b hb
      omega
  · rw [if_neg hi] at hb
    have := natDec_digits b hb
    omega

theorem intDec_utf8 {i : Int} : utf8Valid (intDec i) = true :=
  utf8Valid_ascii intDec_ascii

/-! ## Lemmas about `decodeToString` and `decodeToI64` -/

theorem decodeToString_extend {buf s bs : List Nat} {c : Nat}
    (h : decodeToString buf = .ok (bs, c)) : decodeToString (buf ++ s) = .ok (bs, c) := by
  rw [decodeToString] at h
  cases hr : readUntilCrlf buf with
  | none => rw [hr] at h; exact absurd h (by simp)
  | some p =>
    obtain ⟨b, sz⟩ := p
    rw [hr] at h
    rw [decodeToString, readUntilCrlf_extend hr]
    exact h

theorem decodeToString_le {buf bs : List Nat} {c : Nat}
    (h : decodeToString buf = .ok (bs, c)) : c ≤ buf.length := by
  rw [decodeToString] at h
  cases hr : readUntilCrlf buf with
  | none => rw [hr] at h; exact absurd h (by simp)
  | some p =>
    obtain ⟨b, sz⟩ := p
    simp only [hr] at h
    by_cases hu : utf8Valid b.tail = true
    · rw [if_pos hu] at h
      simp only [Except.ok.injEq, Prod.mk.injEq] at h
      rw [← h.2]
      exact readUntilCrlf_le hr
    · rw [if_neg hu] at h
      exact absurd h (by simp)

theorem decodeToString_encode {tok : Nat} {s : List Nat} (rest : List Nat) (htok : tok ≠ 13)
    (h1 : noCRLF s = true) (h2 : utf8Valid s = true) :
    decodeToString (tok :: (s ++ 13 :: 10 :: rest)) = .ok (s, s.length + 3) := by
  have hr := readUntilCrlf_append_noCRLF (d := tok :: s) rest (noCRLF_cons htok h1)
  rw [List.cons_append] at hr
  rw [decodeToString, hr]
  simp only [List.tail_cons, if_pos h2, List.length_cons]

theorem decodeToI64_extend {buf s : List Nat} {i : Int} {c : Nat}
    (h : decodeToI64 buf = .ok (i, c)) : decodeToI64 (buf ++ s) = .ok (i, c) := by
  rw [decodeToI64] at h
  cases hd : decodeToString buf with
  | error e => rw [hd] at h; exact absurd h (by simp)
  | ok p =>
    obtain ⟨bs, sz⟩ := p
    rw [hd] at h
    rw [decodeToI64, decodeToString_extend hd]
    exact h

theorem decodeToI64_le {buf : List Nat} {i : Int} {c : Nat}
    (h : decodeToI64 buf = .ok (i, c)) : c ≤ buf.length := by
  rw [decodeToI64] at h
  cases hd : decodeToString buf with
  | error e => rw [hd] at h; exact absurd h (by simp)
  | ok p =>
    obtain ⟨bs, sz⟩ := p
    simp only [hd] at h
    cases hp : parseI64 bs with
    | none => simp [hp] at h
    | some j =>
      simp only [hp, Except.ok.injEq, Prod.mk.injEq] at h
      rw [← h.2]
      exact decodeToString_le hd

theorem decodeToI64_encode {tok : Nat} {s : List Nat} {i : Int} (rest : List Nat)
    (htok : tok ≠ 13) (h1 : noCRLF s = true) (h2 : utf8Valid s = true)
    (hp : parseI64 s = some i) :
    decodeToI64 (tok :: (s ++ 13 :: 10 :: rest)) = .ok (i, s.length + 3) := by
  rw [decodeToI64, decodeToString_encode rest htok h1 h2]
  simp only [hp]

end Redis
namespace Redis

/-! ## Consumption bounds and suffix extension for the decoder -/

theorem decodeElemsWith_le {dec : List Nat → Except DecodeError (Value × Nat)}
    (hdec : ∀ buf v c, dec buf = .ok (v, c) → c ≤ buf.length) :
    ∀ {n : Nat} {buf : List Nat} {vs : List Value} {c : Nat},
      decodeElemsWith dec n buf = .ok (vs, c) → c ≤ buf.length := by
  intro n
  induction n with
  | zero =>
    intro buf vs c h
    rw [decodeElemsWith] at h
    simp only [Except.ok.injEq, Prod.mk.injEq] at h
    omega
  | succ m ih =>
    intro buf vs c h
    rw [decodeElemsWith] at h
    cases hd : dec buf with
    | error e => simp [hd] at h
    | ok p =>
      obtain ⟨v, c1⟩ := p
      simp only [hd] at h
      cases he : decodeElemsWith dec m (buf.drop c1) with
      | error e => simp [he] at h
      | ok q =>
        obtain ⟨vs2, c2⟩ := q
        simp only [he, Except.ok.injEq, Prod.mk.injEq] at h
        have h1 := hdec buf v c1 hd
        have h2 := ih he
        rw [List.length_drop] at h2
        omega

theorem decodeElemsWith_extend {dec dec2 : List Nat → Except DecodeError (Value × Nat)}
    {s : List Nat} (hdec_le : ∀ buf v c, dec buf = .ok (v, c) → c ≤ buf.length)
    (hdec_ext : ∀ buf v c, dec buf = .ok (v, c) → dec2 (buf ++ s) = .ok (v, c)) :
    ∀ {n : Nat} {buf : List Nat} {vs : List Value} {c : Nat},
      decodeElemsWith dec n buf = .ok (vs, c) →
        decodeElemsWith dec2 n (buf ++ s) = .ok (vs, c) := by
  intro n
  induction n with
  | zero =>
    intro buf vs c h
    rw [decodeElemsWith] at h ⊢
    exact h
  | succ m ih =>
    intro buf vs c h
    rw [decodeElemsWith] at h ⊢
    cases hd : dec buf with
    | error e => simp [hd] at h
    | ok p =>
      obtain ⟨v, c1⟩ := p
      simp only [hd] at h
      cases he : decodeElemsWith dec m (buf.drop c1) with
      | error e => simp [he] at h
      | ok q =>
        obtain ⟨vs2, c2⟩ := q
        simp only [he, Except.ok.injEq, Prod.mk.injEq] at h
        have hdrop : (buf ++ s).drop c1 = buf.drop c1 ++ s :=
          List.drop_append_of_le_length (hdec_le buf v c1 hd)
        rw [hdec_ext buf v c1 hd]
        simp only [hdrop, ih he]
        simp [h.1, h.2]

theorem decodeWithLen_le :
    ∀ {fuel : Nat} {buf : List Nat} {v : Value} {c : Nat},
      decodeWithLen fuel buf = .ok (v, c) → c ≤ buf.length := by
  intro fuel
  induction fuel with
  | zero => intro buf v c h; rw [decodeWithLen] at h; simp at h
  | succ f ih =>
    intro buf v c h
    cases buf with
    | nil => simp [decodeWithLen] at h
    | cons first t =>
      simp only [decodeWithLen] at h
      split_ifs at h with h43 h45 h58 h36 h42
      · cases hd : decodeToString (first :: t) with
        | error e => simp [hd] at h
        | ok p =>
          obtain ⟨bs, sz⟩ := p
          simp only [hd, Except.ok.injEq, Prod.mk.injEq] at h
          rw [← h.2]
          exact decodeToString_le hd
      · cases hd : decodeToString (first :: t) with
        | error e => simp [hd] at h
        | ok p =>
          obtain ⟨bs, sz⟩ := p
          simp only [hd, Except.ok.injEq, Prod.mk.injEq] at h
          rw [← h.2]
          exact decodeToString_le hd
      · cases hd : decodeToI64 (first :: t) with
        | error e => simp [hd] at h
        | ok p =>
          obtain ⟨j, sz⟩ := p
          simp only [hd, Except.ok.injEq, Prod.mk.injEq] at h
          rw [← h.2]
          exact decodeToI64_le hd
      · cases hd : decodeToI64 (first :: t) with
        | error e => simp [hd] at h
        | ok p =>
          obtain ⟨len64, c1⟩ := p
          simp only [hd] at h
          by_cases hneg : len64 < 0
          · rw [if_pos hneg] at h
            simp only [Except.ok.injEq, Prod.mk.injEq] at h
            rw [← h.2]
            exact decodeToI64_le hd
          · rw [if_neg hneg] at h
            cases hr : readUntilCrlf ((first :: t).drop c1) with
            | none => simp [hr] at h
            | some p =>
              obtain ⟨data, sz⟩ := p
              simp only [hr] at h
              by_cases hlen : data.length = len64.toNat
              · rw [if_pos hlen] at h
                simp only [Except.ok.injEq, Prod.mk.injEq] at h
                have hb1 := decodeToI64_le hd
                have hb2 := readUntilCrlf_le hr
                rw [List.length_drop] at hb2
                omega
              · rw [if_neg hlen] at h
                simp at h
      · cases hd : decodeToI64 (first :: t) with
        | error e => simp [hd] at h
        | ok p =>
          obtain ⟨n64, c1⟩ := p
          simp only [hd] at h
          by_cases hneg : n64 < 0
          · rw [if_pos hneg] at h
            simp only [Except.ok.injEq, Prod.mk.injEq] at h
            rw [← h.2]
            exact decodeToI64_le hd
          · rw [if_neg hneg] at h
            cases he : decodeElemsWith (fun b => decodeWithLen f b) n64.toNat ((first :: t).drop c1) with
            | error e => simp [he] at h
            | ok q =>
              obtain ⟨vs, c2⟩ := q
              simp only [he, Except.ok.injEq, Prod.mk.injEq] at h
              have hb1 := decodeToI64_le hd
              have hb2 := decodeElemsWith_le (fun b2 v2 c2 hh => ih hh) he
              rw [List.length_drop] at hb2
              omega

end Redis
namespace Redis

theorem decodeWithLen_extend :
    ∀ {fuel : Nat} {buf : List Nat} {v : Value} {c : Nat} {g : Nat} (s : List Nat),
      fuel ≤ g → decodeWithLen fuel buf = .ok (v, c) →
        decodeWithLen g (buf ++ s) = .ok (v, c) := by
  intro fuel
  induction fuel with
  | zero => intro buf v c g s _ h; rw [decodeWithLen] at h; simp at h
  | succ f ih =>
    intro buf v c g s hg h
    cases g with
    | zero => omega
    | succ g1 =>
      have hg1 : f ≤ g1 := by omega
      cases buf with
      | nil => simp [decodeWithLen] at h
      | cons first t =>
      simp only [decodeWithLen, List.cons_append] at h ⊢
      split_ifs at h ⊢ with h43 h45 h58 h36 h42
      · cases hd : decodeToString (first :: t) with
        | error e => simp [hd] at h
        | ok p =>
          obtain ⟨bs, sz⟩ := p
          have hd2 := decodeToString_extend (s := s) hd
          rw [List.cons_append] at hd2
          simp only [hd] at h
          simp only [hd2]
          exact h
      · cases hd : decodeToString (first :: t) with
        | error e => simp [hd] at h
        | ok p =>
          obtain ⟨bs, sz⟩ := p
          have hd2 := decodeToString_extend (s := s) hd
          rw [List.cons_append] at hd2
          simp only [hd] at h
          simp only [hd2]
          exact h
      · cases hd : decodeToI64 (first :: t) with
        | error e => simp [hd] at h
        | ok p =>
          obtain ⟨j, sz⟩ := p
          have hd2 := decodeToI64_extend (s := s) hd
          rw [List.cons_append] at hd2
          simp only [hd] at h
          simp only [hd2]
          exact h
      · cases hd : decodeToI64 (first :: t) with
        | error e => simp [hd] at h
        | ok p =>
          obtain ⟨len64, c1⟩ := p
          have hd2 := decodeToI64_extend (s := s) hd
          rw [List.cons_append] at hd2
          simp only [hd] at h
          simp only [hd2]
          by_cases hneg : len64 < 0
          · rw [if_pos hneg] at h ⊢
            exact h
          · rw [if_neg hneg] at h ⊢
            have hdrop : List.drop c1 (first :: (t ++ s)) = List.drop c1 (first :: t) ++ s := by
              rw [← List.cons_append]
              exact List.drop_append_of_le_length (decodeToI64_le hd)
            rw [hdrop]
            cases hr : readUntilCrlf ((first :: t).drop c1) with
            | none => simp [hr] at h
            | some p =>
              obtain ⟨data, sz⟩ := p
              rw [readUntilCrlf_extend hr]
              simp only [hr] at h
              exact h
      · cases hd : decodeToI64 (first :: t) with
        | error e => simp [hd] at h
        | ok p =>
          obtain ⟨n64, c1⟩ := p
          have hd2 := decodeToI64_extend (s := s) hd
          rw [List.cons_append] at hd2
          simp only [hd] at h
          simp only [hd2]
          by_cases hneg : n64 < 0
          · rw [if_pos hneg] at h ⊢
            exact h
          · rw [if_neg hneg] at h ⊢
            have hdrop : List.drop c1 (first :: (t ++ s)) = List.drop c1 (first :: t) ++ s := by
              rw [← List.cons_append]
              exact List.drop_append_of_le_length (decodeToI64_le hd)
            rw [hdrop]
            cases he : decodeElemsWith (fun b => decodeWithLen f b) n64.toNat ((first :: t).drop c1) with
            | error e => simp [he] at h
            | ok q =>
              obtain ⟨vs, c2⟩ := q
              simp only [he] at h
              have he2 := decodeElemsWith_extend (s := s)
                (fun b2 v2 c2 hh => decodeWithLen_le hh)
                (fun b2 v2 c2 hh => ih s hg1 hh) he
              simp only [he2]
              exact h

/-- Trailing bytes never change a successful decode. -/
theorem Value_decode_extend {buf s : List Nat} {v : Value}
    (h : Value.decode buf = .ok v) : Value.decode (buf ++ s) = .ok v := by
  rw [Value.decode] at h
  cases hd : decodeWithLen (buf.length + 1) buf with
  | error e => simp [hd] at h
  | ok p =>
    obtain ⟨v0, c⟩ := p
    simp only [hd, Except.ok.injEq] at h
    subst h
    rw [Value.decode]
    have hext := decodeWithLen_extend (g := (buf ++ s).length + 1) s
      (by simp) hd
    rw [hext]

end Redis
namespace Redis

/-! ## Encode/decode round trip -/

theorem wfList_mem {vs : List Value} (h : wfList vs = true) {v : Value} (hv : v ∈ vs) :
    wfValue v = true := by
  induction vs with
  | nil => simp at hv
  | cons w tl ih =>
    rw [wfList, Bool.and_eq_true] at h
    rcases List.mem_cons.mp hv with hv | hv
    · subst hv; exact h.1
    · exact ih h.2 hv

theorem encodeValue_length_ge : ∀ v : Value, 3 ≤ (encodeValue v).length := by
  intro v
  cases v with
  | simpleString s => simp [encodeValue]
  | simpleError s => simp [encodeValue]
  | integer i => simp [encodeValue]
  | bulkString b =>
    cases b with
    | none => simp [encodeValue]
    | some bs => simp [encodeValue]; omega
  | array a =>
    cases a with
    | none => simp [encodeValue]
    | some vs => simp [encodeValue]; omega

theorem dwl_plus (f : Nat) (X : List Nat) :
    decodeWithLen (f + 1) (43 :: X) =
      (match decodeToString (43 :: X) with
       | .ok (s, size) => .ok (.simpleString s, size)
       | .error e => .error e) := by
  simp [decodeWithLen]

theorem dwl_minus (f : Nat) (X : List Nat) :
    decodeWithLen (f + 1) (45 :: X) =
      (match decodeToString (45 :: X) with
       | .ok (s, size) => .ok (.simpleError s, size)
       | .error e => .error e) := by
  simp [decodeWithLen]

theorem dwl_colon (f : Nat) (X : List Nat) :
    decodeWithLen (f + 1) (58 :: X) =
      (match decodeToI64 (58 :: X) with
       | .ok (i, size) => .ok (.integer i, size)
       | .error e => .error e) := by
  simp [decodeWithLen]

theorem dwl_dollar (f : Nat) (X : List Nat) :
    decodeWithLen (f + 1) (36 :: X) =
      (match decodeToI64 (36 :: X) with
       | .ok (len, c) =>
         if len < 0 then .ok (.bulkString none, c)
         else
           match readUntilCrlf ((36 :: X).drop c) with
           | some (data, sz) =>
             if data.length = len.toNat then .ok (.bulkString (some data), c + sz)
             else .error (.lenMismatch len.toNat data.length)
           | none => .error .invalidFormat
       | .error e => .error e) := by
  simp [decodeWithLen]

theorem dwl_star (f : Nat) (X : List Nat) :
    decodeWithLen (f + 1) (42 :: X) =
      (match decodeToI64 (42 :: X) with
       | .ok (n, c) =>
         if n < 0 then .ok (.array none, c)
         else
           match decodeElemsWith (fun b => decodeWithLen f b) n.toNat ((42 :: X).drop c) with
           | .ok (vs, c2) => .ok (.array (some vs), c + c2)
           | .error e => .error e
       | .error e => .error e) := by
  simp [decodeWithLen]

theorem drop_header {tok : Nat} {s rest : List Nat} :
    List.drop (s.length + 3) (tok :: (s ++ 13 :: 10 :: rest)) = rest := by
  have h1 : s ++ 13 :: 10 :: rest = (s ++ [13, 10]) ++ rest := by simp
  have h2 : s.length + 3 = (s ++ [13, 10]).length + 1 := by simp
  rw [h1, h2, List.drop_succ_cons, List.drop_left]

theorem rt_elems {g : Nat} :
    ∀ {vs : List Value},
      (∀ v ∈ vs, ∀ rest : List Nat, (encodeValue v).length ≤ g →
        decodeWithLen g (encodeValue v ++ rest) = .ok (v, (encodeValue v).length)) →
      ∀ rest : List Nat, (encodeList vs).length ≤ g →
        decodeElemsWith (fun b => decodeWithLen g b) vs.length (encodeList vs ++ rest) =
          .ok (vs, (encodeList vs).length) := by
  intro vs
  induction vs with
  | nil =>
    intro _ rest _
    rw [encodeList]
    simp [decodeElemsWith]
  | cons v tl ih =>
    intro H rest hlen
    rw [encodeList] at hlen ⊢
    rw [List.length_cons, List.append_assoc, decodeElemsWith]
    have hv := H v (by simp) (encodeList tl ++ rest)
      (by simp [List.length_append] at hlen ⊢; omega)
    simp only [hv]
    rw [List.drop_left]
    have htl := ih (fun w hw => H w (List.mem_cons_of_mem v hw)) rest
      (by simp [List.length_append] at hlen ⊢; omega)
    simp only [htl]
    simp [List.length_append]

theorem rt_main :
    ∀ (k : Nat) (v : Value), sizeOf v < k → wfValue v = true →
      ∀ (fuel : Nat) (rest : List Nat), (encodeValue v).length ≤ fuel →
        decodeWithLen fuel (encodeValue v ++ rest) = .ok (v, (encodeValue v).length) := by
  intro k
  induction k with
  | zero => intro v hs; omega
  | succ k ih =>
    intro v hs hwf fuel rest hfuel
    have hfuel3 : 3 ≤ fuel := le_trans (encodeValue_length_ge v) hfuel
    cases fuel with
    | zero => omega
    | succ f =>
    cases v with
    | simpleString s =>
      rw [wfValue, Bool.and_eq_true] at hwf
      rw [encodeValue] at hfuel ⊢
      have hshape : (43 :: s ++ [13, 10]) ++ rest = 43 :: (s ++ 13 :: 10 :: rest) := by simp
      rw [hshape, dwl_plus]
      rw [decodeToString_encode rest (by omega) hwf.1 hwf.2]
      simp
    | simpleError s =>
      rw [wfValue, Bool.and_eq_true] at hwf
      rw [encodeValue] at hfuel ⊢
      have hshape : (45 :: s ++ [13, 10]) ++ rest = 45 :: (s ++ 13 :: 10 :: rest) := by simp
      rw [hshape, dwl_minus]
      rw [decodeToString_encode rest (by omega) hwf.1 hwf.2]
      simp
    | integer i =>
      rw [wfValue, Bool.and_eq_true, decide_eq_true_eq, decide_eq_true_eq] at hwf
      rw [encodeValue] at hfuel ⊢
      have hshape : (58 :: intDec i ++ [13, 10]) ++ rest = 58 :: (intDec i ++ 13 :: 10 :: rest) := by
        simp
      rw [hshape, dwl_colon]
      rw [decodeToI64_encode rest (by omega) intDec_noCRLF intDec_utf8
        (parseI64_intDec hwf.1 hwf.2)]
      simp
    | bulkString b =>
      cases b with
      | none =>
        rw [encodeValue] at hfuel ⊢
        have hshape : [36, 45, 49, 13, 10] ++ rest = 36 :: ([45, 49] ++ 13 :: 10 :: rest) := by
          simp
        rw [hshape, dwl_dollar]
        rw [decodeToI64_encode rest (by omega) (by rfl) (by rfl) (by rfl :
          parseI64 [45, 49] = some (-1))]
        norm_num
      | some bs =>
        rw [wfValue, Bool.and_eq_true, decide_eq_true_eq] at hwf
        rw [encodeValue] at hfuel ⊢
        have hshape : (36 :: natDec bs.length ++ [13, 10] ++ bs ++ [13, 10]) ++ rest =
            36 :: (natDec bs.length ++ 13 :: 10 :: (bs ++ 13 :: 10 :: rest)) := by simp
        rw [hshape, dwl_dollar]
        rw [decodeToI64_encode (bs ++ 13 :: 10 :: rest) (by omega) natDec_noCRLF natDec_utf8
          (parseI64_natDec hwf.2)]
        dsimp only
        rw [if_neg (by omega)]
        rw [drop_header, readUntilCrlf_append_noCRLF rest hwf.1]
        dsimp only
        rw [if_pos (by simp)]
        simp only [Except.ok.injEq, Prod.mk.injEq]
        exact ⟨trivial, by simp [List.length_append]; try omega⟩
    | array a =>
      cases a with
      | none =>
        rw [encodeValue] at hfuel ⊢
        have hshape : [42, 45, 49, 13, 10] ++ rest = 42 :: ([45, 49] ++ 13 :: 10 :: rest) := by
          simp
        rw [hshape, dwl_star]
        rw [decodeToI64_encode rest (by omega) (by rfl) (by rfl) (by rfl :
          parseI64 [45, 49] = some (-1))]
        norm_num
      | some vs =>
        rw [wfValue, Bool.and_eq_true, decide_eq_true_eq] at hwf
        rw [encodeValue] at hfuel ⊢
        have hshape : (42 :: natDec vs.length ++ [13, 10] ++ encodeList vs) ++ rest =
            42 :: (natDec vs.length ++ 13 :: 10 :: (encodeList vs ++ rest)) := by simp
        rw [hshape, dwl_star]
        rw [decodeToI64_encode (encodeList vs ++ rest) (by omega) natDec_noCRLF natDec_utf8
          (parseI64_natDec hwf.1)]
        dsimp only
        rw [if_neg (by omega)]
        rw [drop_header]
        have hmem : ∀ w ∈ vs, ∀ rest2 : List Nat, (encodeValue w).length ≤ f →
            decodeWithLen f (encodeValue w ++ rest2) = .ok (w, (encodeValue w).length) := by
          intro w hw rest2 hle
          have hsw : sizeOf w < k := by
            have h1 := List.sizeOf_lt_of_mem hw
            simp at hs
            omega
          exact ih w hsw (wfList_mem hwf.2 hw) f rest2 hle
        have helems := rt_elems hmem rest (by
          simp [List.length_append] at hfuel
          omega)
        rw [show ((vs.length : Int)).toNat = vs.length from by simp]
        simp only [helems]
        simp only [Except.ok.injEq, Prod.mk.injEq]
        exact ⟨trivial, by simp [List.length_append]; try omega⟩

end Redis
namespace Redis

/-! ## Claim theorems: codec -/


/-- Claim C1 (counterexample): the claim fails as stated.  The value
`BulkString(some [13, 10])` is well formed under the spec's data model (a
bulk payload is an arbitrary byte sequence), its encoding is
`$2\r\n\r\n\r\n`, yet decoding that buffer fails with LenMismatch
(given 2, actual 0), because `BulkString::_decode` reads the payload only up
to the first CRLF.  So decode(encode v) ≠ v for this v. -/
theorem C1_roundtrip_counterexample :
    Value.decode (encodeValue (.bulkString (some [13, 10]))) =
      .error (.lenMismatch 2 0) := rfl

/-- Claim C1 (amended): for every well-formed Value v — where, in addition to
the claim's conditions (texts CRLF-free and valid UTF-8, integers within i64,
null and empty forms as stated), every BulkString payload must itself contain
no CRLF byte pair — decoding the bytes produced by encoding v yields exactly
v again; in particular the null/empty distinction survives the round trip. -/
theorem C1_roundtrip (v : Value) (h : wfValue v = true) :
    Value.decode (encodeValue v) = .ok v := by
  rw [Value.decode]
  have hmain := rt_main (sizeOf v + 1) v (by omega) h ((encodeValue v).length + 1) []
    (by omega)
  rw [List.append_nil] at hmain
  rw [hmain]

/-- Claim C1 (witness): the amended round trip evaluated at a concrete nested
value containing null/empty bulk strings and arrays and mixed element
types. -/
theorem C1_roundtrip_witness :
    wfValue c1WitnessValue = true ∧
      Value.decode (encodeValue c1WitnessValue) = .ok c1WitnessValue :=
  ⟨by decide, C1_roundtrip c1WitnessValue (by decide)⟩

/-- Claim C9 (confirmed): the decoder treats every negative length token as
null, not only −1.  For every token string that parses as a negative i64 `n`,
decoding `$<n>\r\n...` succeeds with the null BulkString and decoding
`*<n>\r\n...` succeeds with the null Array, in both cases consuming only the
header line (`tok.length + 3` bytes), whatever bytes follow. -/
theorem C9_negative_length_null (tok : List Nat) (n : Int) (rest : List Nat) (f : Nat)
    (hp : parseI64 tok = some n) (hn : n < 0) :
    decodeWithLen (f + 1) (36 :: (tok ++ 13 :: 10 :: rest)) =
        .ok (.bulkString none, tok.length + 3) ∧
      decodeWithLen (f + 1) (42 :: (tok ++ 13 :: 10 :: rest)) =
        .ok (.array none, tok.length + 3) ∧
      Value.decode (36 :: (tok ++ 13 :: 10 :: rest)) = .ok (.bulkString none) ∧
      Value.decode (42 :: (tok ++ 13 :: 10 :: rest)) = .ok (.array none) := by
  have hbytes := parseI64_bytes hp
  have hno : noCRLF tok = true := noCRLF_of_ne13 fun b hb => (hbytes b hb).2.1
  have hutf : utf8Valid tok = true := utf8Valid_ascii fun b hb => (hbytes b hb).1
  have hdollar : ∀ g : Nat, decodeWithLen (g + 1) (36 :: (tok ++ 13 :: 10 :: rest)) =
      .ok (.bulkString none, tok.length + 3) := by
    intro g
    rw [dwl_dollar, decodeToI64_encode rest (by omega) hno hutf hp]
    dsimp only
    rw [if_pos hn]
  have hstar : ∀ g : Nat, decodeWithLen (g + 1) (42 :: (tok ++ 13 :: 10 :: rest)) =
      .ok (.array none, tok.length + 3) := by
    intro g
    rw [dwl_star, decodeToI64_encode rest (by omega) hno hutf hp]
    dsimp only
    rw [if_pos hn]
  refine ⟨hdollar f, hstar f, ?_, ?_⟩
  · rw [Value.decode, hdollar ((36 :: (tok ++ 13 :: 10 :: rest)).length)]
  · rw [Value.decode, hstar ((42 :: (tok ++ 13 :: 10 :: rest)).length)]

end Redis

namespace Redis

/-- Claim C9 (witness): the negative-length rule evaluated at the token
`-2` with trailing garbage byte 43. -/
theorem C9_negative_length_null_witness :
    parseI64 [45, 50] = some (-2) ∧ (-2 : Int) < 0 ∧
      Value.decode (36 :: ([45, 50] ++ 13 :: 10 :: [43])) = .ok (.bulkString none) ∧
      Value.decode (42 :: ([45, 50] ++ 13 :: 10 :: [43])) = .ok (.array none) :=
  ⟨rfl, by decide,
    (C9_negative_length_null [45, 50] (-2) [43] 0 rfl (by decide)).2.2.1,
    (C9_negative_length_null [45, 50] (-2) [43] 0 rfl (by decide)).2.2.2⟩

/-- Claim C10 (confirmed): trailing bytes never affect decoding — whenever
decoding a buffer succeeds with value v, decoding that buffer with any byte
suffix appended also succeeds with the same v (the extra bytes are ignored;
this is the behavior `Session::receive_request` relies on when a read
delivers more than one frame). -/
theorem C10_trailing_bytes (buf s : List Nat) (v : Value)
    (h : Value.decode buf = .ok v) : Value.decode (buf ++ s) = .ok v :=
  Value_decode_extend h

/-- Claim C10 (witness): `+OK
` decodes to SimpleString "OK", and so does
`+OK
` followed by two garbage bytes. -/
theorem C10_trailing_bytes_witness :
    Value.decode [43, 79, 75, 13, 10] = .ok (.simpleString [79, 75]) ∧
      Value.decode ([43, 79, 75, 13, 10] ++ [42, 49]) = .ok (.simpleString [79, 75]) :=
  ⟨rfl, C10_trailing_bytes [43, 79, 75, 13, 10] [42, 49] (.simpleString [79, 75]) rfl⟩

end Redis
namespace Redis

/-! ## Claim theorems: handlers -/

/-- Claim C7 (confirmed): Ping with no message replies exactly SimpleString
"PONG"; Ping with message m replies exactly Array[BulkString "PONG",
BulkString m] — two distinct reply shapes. -/
theorem C7_ping_reply_forms :
    PingHandler.handle ⟨none⟩ = .simpleString pongBytes ∧
      ∀ m : Bulk, PingHandler.handle ⟨some m⟩ =
        .array (some [.bulkString (some pongBytes), .bulkString m]) :=
  ⟨rfl, fun _ => rfl⟩

/-- Claim C2 (confirmed): Set(k, v[, px=e]) replaces the entry at k with
exactly {value v, deadline now+e when e was given, else none},
unconditionally over any prior store contents (any prior value and deadline
are gone), leaves every other key unchanged, and replies SimpleString "OK";
a Get of k afterwards with no elapsed expiry (at any time t2 ≤ now + e, or
at any time at all when no expiry was given) returns v. -/
theorem C2_set_postcondition (now : Nat) (k v : Bulk) (e : Option Nat) (map : Store) :
    (SetHandler.handle now ⟨k, v, e⟩ map).1 = .simpleString okBytes ∧
      (SetHandler.handle now ⟨k, v, e⟩ map).2 k = some ⟨v, e.map fun d => now + d⟩ ∧
      (∀ q, q ≠ k → (SetHandler.handle now ⟨k, v, e⟩ map).2 q = map q) ∧
      (∀ t2, (match e with | some d => t2 ≤ now + d | none => True) →
        (GetHandler.handleSeq t2 (SetHandler.handle now ⟨k, v, e⟩ map).2 ⟨k⟩).1 =
          .bulkString v) := by
  refine ⟨rfl, ?_, ?_, ?_⟩
  · simp [SetHandler.handle, Store.insert]
  · intro q hq
    simp [SetHandler.handle, Store.insert, hq]
  · intro t2 ht2
    have hlook : (SetHandler.handle now ⟨k, v, e⟩ map).2 k =
        some ⟨v, e.map fun d => now + d⟩ := by
      simp [SetHandler.handle, Store.insert]
    rw [GetHandler.handleSeq, GetHandler.handle]
    rw [hlook]
    have hexp : StoredData.hasExpired ⟨v, e.map fun d => now + d⟩ t2 = false := by
      cases e with
      | none => rfl
      | some d =>
        simp only [Option.map_some', StoredData.hasExpired]
        simp at ht2 ⊢
        omega
    dsimp only
    simp [hexp]

/-- Witness value for C2 at concrete inputs, with and without expiry. -/
theorem C2_set_postcondition_witness :
    ((100 : Nat) ≤ 100 + 50 ∧
      (GetHandler.handleSeq 100
        (SetHandler.handle 100 ⟨some [107], some [118], some 50⟩ Store.empty).2
          ⟨some [107]⟩).1 = .bulkString (some [118])) ∧
      (GetHandler.handleSeq 999999
        (SetHandler.handle 0 ⟨some [107], some [119], none⟩ Store.empty).2
          ⟨some [107]⟩).1 = .bulkString (some [119]) :=
  ⟨⟨by omega,
    (C2_set_postcondition 100 (some [107]) (some [118]) (some 50) Store.empty).2.2.2 100
      (by omega)⟩,
    (C2_set_postcondition 0 (some [107]) (some [119]) none Store.empty).2.2.2 999999
      trivial⟩

/-- Claim C3 (confirmed): Get(k) run with read-lock store `mr` at time `tr`
and write-lock store `mw` at time `tw` (a concurrent Set may change the
store between the two lock acquisitions): absent key → null BulkString;
present and not expired → the stored value as BulkString; present but
expired at read time → null BulkString in every case, with the entry
removed only when the re-check under the write lock still finds it expired —
an entry refreshed in between (or already gone) is left untouched. -/
theorem C3_get_semantics (tr tw : Nat) (mr mw : Store) (k : Bulk) :
    (mr k = none → GetHandler.handle tr mr tw mw ⟨k⟩ = (.bulkString none, mw)) ∧
      (∀ d, mr k = some d → d.hasExpired tr = false →
        GetHandler.handle tr mr tw mw ⟨k⟩ = (.bulkString d.value, mw)) ∧
      (∀ d, mr k = some d → d.hasExpired tr = true →
        (GetHandler.handle tr mr tw mw ⟨k⟩).1 = .bulkString none ∧
          (mw k = none → (GetHandler.handle tr mr tw mw ⟨k⟩).2 = mw) ∧
          (∀ e2, mw k = some e2 → e2.hasExpired tw = false →
            (GetHandler.handle tr mr tw mw ⟨k⟩).2 = mw) ∧
          (∀ e2, mw k = some e2 → e2.hasExpired tw = true →
            (GetHandler.handle tr mr tw mw ⟨k⟩).2 = mw.remove k ∧
              (GetHandler.handle tr mr tw mw ⟨k⟩).2 k = none)) := by
  refine ⟨?_, ?_, ?_⟩
  · intro habs
    rw [GetHandler.handle, habs]
  · intro d hd hexp
    rw [GetHandler.handle, hd]
    simp [hexp]
  · intro d hd hexp
    refine ⟨?_, ?_, ?_, ?_⟩
    · rw [GetHandler.handle, hd]
      simp only [hexp]
      cases hw : mw k with
      | none => simp
      | some e2 =>
        by_cases h2 : e2.hasExpired tw = true
        · simp [h2]
        · simp at h2
          simp [h2]
    · intro hw
      rw [GetHandler.handle, hd]
      simp only [hexp]
      simp [hw]
    · intro e2 hw h2
      rw [GetHandler.handle, hd]
      simp only [hexp]
      simp [hw, h2]
    · intro e2 hw h2
      rw [GetHandler.handle, hd]
      simp only [hexp]
      simp only [hw, h2]
      constructor
      · simp
      · simp [Store.remove]

/-- Witness for C3: an entry expired at read time but refreshed by a
concurrent Set before the write lock is acquired is returned as null yet
never removed; the same entry still expired at the write lock is removed. -/
theorem C3_get_semantics_witness :
    ((Store.empty.insert (some [107]) ⟨some [118], some 10⟩) (some [107]) =
        some ⟨some [118], some 10⟩ ∧
      StoredData.hasExpired ⟨some [118], some 10⟩ 20 = true ∧
      StoredData.hasExpired ⟨some [119], some 99⟩ 21 = false ∧
      (GetHandler.handle 20 (Store.empty.insert (some [107]) ⟨some [118], some 10⟩) 21
        (Store.empty.insert (some [107]) ⟨some [119], some 99⟩) ⟨some [107]⟩).1 =
          .bulkString none ∧
      (GetHandler.handle 20 (Store.empty.insert (some [107]) ⟨some [118], some 10⟩) 21
        (Store.empty.insert (some [107]) ⟨some [119], some 99⟩) ⟨some [107]⟩).2 =
          Store.empty.insert (some [107]) ⟨some [119], some 99⟩) ∧
      (GetHandler.handle 20 (Store.empty.insert (some [107]) ⟨some [118], some 10⟩) 21
        (Store.empty.insert (some [107]) ⟨some [118], some 10⟩) ⟨some [107]⟩).2
          (some [107]) = none := by
  have h1 := (C3_get_semantics 20 21 (Store.empty.insert (some [107]) ⟨some [118], some 10⟩)
    (Store.empty.insert (some [107]) ⟨some [119], some 99⟩) (some [107])).2.2
    ⟨some [118], some 10⟩ (by decide) (by decide)
  have h2 := (C3_get_semantics 20 21 (Store.empty.insert (some [107]) ⟨some [118], some 10⟩)
    (Store.empty.insert (some [107]) ⟨some [118], some 10⟩) (some [107])).2.2
    ⟨some [118], some 10⟩ (by decide) (by decide)
  refine ⟨⟨by decide, by decide, by decide, h1.1, ?_⟩, ?_⟩
  · exact h1.2.2.1 ⟨some [119], some 99⟩ (by decide) (by decide)
  · exact (h2.2.2.2 ⟨some [118], some 10⟩ (by decide) (by decide)).2

end Redis
namespace Redis

/-! ## Claim theorems: arity -/

theorem consumeRequired_ok_length :
    ∀ {vals : List Value} {n : Nat} {bs : List Bulk} {r : List Value},
      consumeRequired vals n = .ok (bs, r) → vals.length = n + r.length := by
  intro vals n
  induction n generalizing vals with
  | zero =>
    intro bs r h
    rw [consumeRequired] at h
    simp only [Except.ok.injEq, Prod.mk.injEq] at h
    rw [← h.2]
    omega
  | succ m ih =>
    intro bs r h
    cases vals with
    | nil => rw [consumeRequired] at h; simp at h
    | cons v rest =>
      rw [consumeRequired] at h
      cases hv : valueToBulkString v with
      | error e => simp [hv] at h
      | ok b =>
        simp only [hv] at h
        cases hr : consumeRequired rest m with
        | error e => simp [hr] at h
        | ok p =>
          obtain ⟨bs0, r0⟩ := p
          simp only [hr, Except.ok.injEq, Prod.mk.injEq] at h
          have := ih hr
          rw [← h.2]
          simp [this]
          omega

theorem consumeOptional_ok_length :
    ∀ {vals : List Value} {n : Nat} {bs : List Bulk} {r : List Value},
      consumeOptional vals n = .ok (bs, r) → vals.length ≤ n + r.length := by
  intro vals n
  induction n generalizing vals with
  | zero =>
    intro bs r h
    rw [consumeOptional] at h
    simp only [Except.ok.injEq, Prod.mk.injEq] at h
    rw [← h.2]
    omega
  | succ m ih =>
    intro bs r h
    cases vals with
    | nil =>
      rw [consumeOptional] at h
      simp only [Except.ok.injEq, Prod.mk.injEq] at h
      rw [← h.2]
      simp
    | cons v rest =>
      rw [consumeOptional] at h
      cases hv : valueToBulkString v with
      | error e => simp [hv] at h
      | ok b =>
        simp only [hv] at h
        cases hr : consumeOptional rest m with
        | error e => simp [hr] at h
        | ok p =>
          obtain ⟨bs0, r0⟩ := p
          simp only [hr, Except.ok.injEq, Prod.mk.injEq] at h
          have := ih hr
          rw [← h.2]
          simp at this ⊢
          omega

/-- Claim C4 (confirmed): arity is checked exactly.  Get with zero or with
two or more argument tokens fails with WrongNumArgs, Echo likewise; Set with
a third token whose keyword is not case-insensitively `px` (including a null
or non-UTF-8 token) fails with InvalidArgument carrying that token; and for
any declared arity, a token list longer than required+optional never parses
successfully. -/
theorem C4_arity_checked :
    (∀ args : List Bulk, args.length = 0 ∨ 2 ≤ args.length →
      Command.tryFrom (commandOfBulks getBytes args) = .error .wrongNumArgs) ∧
      (∀ args : List Bulk, args.length = 0 ∨ 2 ≤ args.length →
        Command.tryFrom (commandOfBulks echoBytes args) = .error .wrongNumArgs) ∧
      (∀ k v w : Bulk, (∀ s, Bulk.asStr w = some s → eqIgnoreAsciiCase s pxBytes = false) →
        SetArg.parseArg ([k, v, w].map Value.bulkString) =
            .error (.invalidArgument (.bulkString w)) ∧
          ∀ x : Bulk, SetArg.parseArg ([k, v, w, x].map Value.bulkString) =
            .error (.invalidArgument (.bulkString w))) ∧
      (∀ (vals : List Value) (nec opt : Nat), nec + opt < vals.length →
        ∀ res, consumeArgsFromIter vals nec opt ≠ .ok res) := by
  have hover : ∀ (vals : List Value) (nec opt : Nat), nec + opt < vals.length →
      ∀ res, consumeArgsFromIter vals nec opt ≠ .ok res := by
    intro vals nec opt hlt res h
    rw [consumeArgsFromIter] at h
    cases hr : consumeRequired vals nec with
    | error e => simp [hr] at h
    | ok p =>
      obtain ⟨req, r1⟩ := p
      simp only [hr] at h
      cases ho : consumeOptional r1 opt with
      | error e => simp [ho] at h
      | ok q =>
        obtain ⟨o, r2⟩ := q
        simp only [ho] at h
        cases r2 with
        | cons x xs => simp at h
        | nil =>
          have h1 := consumeRequired_ok_length hr
          have h2 := consumeOptional_ok_length ho
          simp at h2
          omega
  refine ⟨?_, ?_, ?_, hover⟩
  · intro args hlen
    rcases hlen with h0 | h2
    · rw [List.length_eq_zero] at h0
      subst h0
      rfl
    · match args, h2 with
      | a :: b :: rest, _ => rfl
  · intro args hlen
    rcases hlen with h0 | h2
    · rw [List.length_eq_zero] at h0
      subst h0
      rfl
    · match args, h2 with
      | a :: b :: rest, _ => rfl
  · intro k v w hw
    cases hws : Bulk.asStr w with
    | none =>
      constructor
      · simp [SetArg.parseArg, consumeArgsFromIter, consumeRequired, consumeOptional,
          valueToBulkString, bulkStringToString, hws]
      · intro x
        simp [SetArg.parseArg, consumeArgsFromIter, consumeRequired, consumeOptional,
          valueToBulkString, bulkStringToString, hws]
    | some s =>
      have hpx := hw s hws
      constructor
      · simp [SetArg.parseArg, consumeArgsFromIter, consumeRequired, consumeOptional,
          valueToBulkString, bulkStringToString, hws, hpx]
      · intro x
        simp [SetArg.parseArg, consumeArgsFromIter, consumeRequired, consumeOptional,
          valueToBulkString, bulkStringToString, hws, hpx]

end Redis
namespace Redis

/-- Claim C4 (witness): the arity rules evaluated at concrete inputs — Get
with zero and with two tokens, Echo with zero tokens, Set with third token
`foo`, and one token too many for a (0,0)-arity parse. -/
theorem C4_arity_checked_witness :
    Command.tryFrom (commandOfBulks getBytes []) = .error .wrongNumArgs ∧
      Command.tryFrom (commandOfBulks getBytes [some [97], some [98]]) =
        .error .wrongNumArgs ∧
      Command.tryFrom (commandOfBulks echoBytes []) = .error .wrongNumArgs ∧
      SetArg.parseArg ([some [107], some [118], some [102, 111, 111]].map Value.bulkString) =
        .error (.invalidArgument (.bulkString (some [102, 111, 111]))) ∧
      consumeArgsFromIter [.integer 5] 0 0 ≠ .ok [] :=
  ⟨C4_arity_checked.1 [] (Or.inl rfl),
    C4_arity_checked.1 [some [97], some [98]] (Or.inr (by decide)),
    C4_arity_checked.2.1 [] (Or.inl rfl),
    (C4_arity_checked.2.2.1 (some [107]) (some [118]) (some [102, 111, 111])
      (by
        intro s hs
        rw [show Bulk.asStr (some [102, 111, 111]) = some [102, 111, 111] from rfl] at hs
        rw [← Option.some.inj hs]
        decide)).1,
    C4_arity_checked.2.2.2 [.integer 5] 0 0 (by decide) []⟩

/-! ## Claim theorems: execution totality -/

/-- Claim C5 (counterexample): the claim fails as stated.  `INFO` with no
argument passes parsing (the absent section argument defaults to the Default
section), yet executing it reaches the `todo!()` panic in the Info handler
(modelled as `none`): execution of a parsed command is not total. -/
theorem C5_execution_total_counterexample :
    Command.parse [42, 49, 13, 10, 36, 52, 13, 10, 73, 78, 70, 79, 13, 10] =
        .ok (.info ⟨.default⟩) ∧
      CommandHandler.handle 0 ⟨false, none⟩ Store.empty (.info ⟨.default⟩) = none :=
  ⟨rfl, rfl⟩

/-- Claim C5 (amended): executing any parsed Ping, Echo, Set or Get, and any
Info whose section is not Default, never fails — it always produces a reply
Value (the dispatched `Command` type has no ReplConf variant, and
`HandleCommandError` is uninhabited, so the only failure mode is the
`todo!()` panic of the unimplemented Info Default section). -/
theorem C5_execution_total (now : Nat) (cfg : CommandHandlerConfig) (map : Store)
    (cmd : Command) (h : ∀ a : InfoArg, cmd = .info a → a.sec ≠ .default) :
    (CommandHandler.handle now cfg map cmd).isSome = true := by
  cases cmd with
  | ping a => rfl
  | echo a => rfl
  | set a => rfl
  | get a => rfl
  | info a =>
    have ha := h a rfl
    cases hsec : a.sec with
    | default => exact absurd hsec ha
    | replication =>
      simp [CommandHandler.handle, InfoHandler.handle, hsec]

/-- Claim C5 (witness): totality applied to a concrete Get and a concrete
Info Replication command. -/
theorem C5_execution_total_witness :
    (CommandHandler.handle 0 ⟨false, none⟩ Store.empty (.get ⟨some [107]⟩)).isSome = true ∧
      (CommandHandler.handle 0 ⟨true, none⟩ Store.empty
        (.info ⟨.replication⟩)).isSome = true :=
  ⟨C5_execution_total 0 ⟨false, none⟩ Store.empty (.get ⟨some [107]⟩)
      (fun a ha => Command.noConfusion ha),
    C5_execution_total 0 ⟨true, none⟩ Store.empty (.info ⟨.replication⟩)
      (fun a ha => by
        rw [show a = (⟨.replication⟩ : InfoArg) from (Command.info.inj ha).symm]
        decide)⟩

/-! ## Claim theorems: handshake -/

/-- Claim C6 (counterexample): the claim fails in its last clause.  When the
master's reply to the Ping step is SimpleString "NO" (not "PONG"), the
handshake fails after exactly one request, but the error is the wrapped
client error InvalidResponse, not the `CannotConnectMaster`
("cannot connect to master") error — that variant exists in the code but is
never constructed. -/
theorem C6_handshake_counterexample :
    Replication.connectToMaster 6380 [.simpleString [78, 79]] =
        (.error (.client .invalidResponse), 1) ∧
      ReplicationError.client .invalidResponse ≠ .cannotConnectMaster :=
  ⟨rfl, by decide⟩

/-- Claim C6 (amended): a master replying PONG, OK, OK completes the
handshake (exactly three requests sent); a reply that is not the expected
SimpleString at step 2 (Ping), 3 (REPLCONF listening-port) or 4 (REPLCONF
capa) fails at exactly that step — the failing step's request is the last
one sent, so later steps are never attempted — with a wrapped
ClientError::InvalidResponse (or, when the connection yields no reply, a
wrapped session NoResponse error), never the unused CannotConnectMaster
error. -/
theorem C6_handshake (port : Nat) :
    (∀ extra : List Value,
      Replication.connectToMaster port
          (.simpleString pongBytes :: .simpleString okBytes :: .simpleString okBytes :: extra) =
        (.ok (), 3)) ∧
      (∀ r rest, isSimpleString r pongBytes = false →
        Replication.connectToMaster port (r :: rest) =
          (.error (.client .invalidResponse), 1)) ∧
      Replication.connectToMaster port [] =
        (.error (.client (.session .noResponse)), 1) ∧
      (∀ r rest, isSimpleString r okBytes = false →
        Replication.connectToMaster port (.simpleString pongBytes :: r :: rest) =
          (.error (.client .invalidResponse), 2)) ∧
      Replication.connectToMaster port [.simpleString pongBytes] =
        (.error (.client (.session .noResponse)), 2) ∧
      (∀ r rest, isSimpleString r okBytes = false →
        Replication.connectToMaster port
            (.simpleString pongBytes :: .simpleString okBytes :: r :: rest) =
          (.error (.client .invalidResponse), 3)) ∧
      Replication.connectToMaster port [.simpleString pongBytes, .simpleString okBytes] =
        (.error (.client (.session .noResponse)), 3) := by
  have hp : isSimpleString (.simpleString pongBytes) pongBytes = true := rfl
  have hok : isSimpleString (.simpleString okBytes) okBytes = true := rfl
  refine ⟨fun extra => rfl, ?_, rfl, ?_, rfl, ?_, rfl⟩
  · intro r rest hr
    simp [Replication.connectToMaster, PingClient.ping, hr]
  · intro r rest hr
    simp [Replication.connectToMaster, PingClient.ping, ReplConfClient.replconf,
      hp, hok, hr]
  · intro r rest hr
    simp [Replication.connectToMaster, PingClient.ping, ReplConfClient.replconf,
      hp, hok, hr]

/-- Claim C6 (witness): the amended handshake behavior at concrete reply
sequences — success on PONG, OK, OK, and a step-2 failure on a non-OK
reply to the listening-port REPLCONF. -/
theorem C6_handshake_witness :
    Replication.connectToMaster 6380
        [.simpleString pongBytes, .simpleString okBytes, .simpleString okBytes] =
      (.ok (), 3) ∧
      isSimpleString (.integer 7) okBytes = false ∧
      Replication.connectToMaster 6380 [.simpleString pongBytes, .integer 7] =
        (.error (.client .invalidResponse), 2) :=
  ⟨(C6_handshake 6380).1 [], by decide,
    (C6_handshake 6380).2.2.2.1 (.integer 7) [] (by decide)⟩

/-! ## Claim theorems: serialized execution order -/

/-- Claim C8 (confirmed): the engine executes requests one at a time in
arrival order.  For any request B enqueued after the requests `pre` (all of
which executed without panicking), B executes against exactly the store
produced by executing all of `pre` in order — every side effect of every
earlier request is visible to B — and the requests after B run on the store
B leaves behind; replies are emitted in the same order.  (The arrival-order
queue models the bounded mpsc channel of `Redis::start`, whose single
consumer finishes each `handle_request` before receiving the next, so no
two commands ever execute concurrently against the store.) -/
theorem C8_serialized_order (cfg : CommandHandlerConfig) (s0 : Store)
    (pre post : List (Nat × Command)) (b : Nat × Command)
    (h : (engineRun cfg s0 pre).2.length = pre.length) :
    engineRun cfg s0 (pre ++ b :: post) =
      (match CommandHandler.handle b.1 cfg (engineRun cfg s0 pre).1 b.2 with
       | some (v, m2) =>
         ((engineRun cfg m2 post).1,
           (engineRun cfg s0 pre).2 ++ v :: (engineRun cfg m2 post).2)
       | none => ((engineRun cfg s0 pre).1, (engineRun cfg s0 pre).2)) := by
  induction pre generalizing s0 with
  | nil =>
    obtain ⟨tb, cb⟩ := b
    simp only [List.nil_append, engineRun]
  | cons a pre ih =>
    obtain ⟨ta, ca⟩ := a
    rw [List.cons_append]
    rw [engineRun, engineRun]
    rw [engineRun] at h
    cases ha : CommandHandler.handle ta cfg s0 ca with
    | none =>
      rw [ha] at h
      exact absurd h (by simp)
    | some p =>
      obtain ⟨v, m2⟩ := p
      rw [ha] at h
      dsimp only at h ⊢
      cases hp : engineRun cfg m2 pre with
      | mk mp vp =>
        rw [hp] at h
        dsimp only at h ⊢
        have hlen : vp.length = pre.length := by simpa using h
        have hih := ih m2 (by rw [hp]; simpa using hlen)
        rw [hp] at hih
        rw [hih]
        dsimp only
        cases hb : CommandHandler.handle b.1 cfg mp b.2 with
        | none => rfl
        | some q =>
          obtain ⟨vb, mb⟩ := q
          simp

/-- Claim C8 (witness): a Set enqueued before a Get — the Get observes the
Set's side effect, and the replies come back in arrival order. -/
theorem C8_serialized_order_witness :
    (engineRun ⟨false, none⟩ Store.empty
        [(0, .set ⟨some [107], some [118], none⟩)]).2.length = 1 ∧
      (engineRun ⟨false, none⟩ Store.empty
          ([(0, .set ⟨some [107], some [118], none⟩)] ++ (5, .get ⟨some [107]⟩) :: [])).2 =
        [.simpleString okBytes, .bulkString (some [118])] := by
  refine ⟨rfl, ?_⟩
  have h := C8_serialized_order ⟨false, none⟩ Store.empty
    [(0, .set ⟨some [107], some [118], none⟩)] [] (5, .get ⟨some [107]⟩) rfl
  rw [h]
  rfl

end Redis
